import Mathlib

/-!
# A verification development for the `btrie` package

The package implements a binary trie over byte-slice keys (`btrie.go`).
The Go code is a pointer structure that is mutated in place; it is embedded
here as an immutable tree in which a `*node` is a value of the inductive type
`node` and a mutation along the path walked by a loop becomes a rebuild of
the nodes on that path.

Conventions of the embedding:

* a byte is a `Fin 256`; a key (`[]byte`) is a `List Byte`;
* a value of type `interface{}` is an `Option V`, `none` being Go's `nil`;
* a `*Entry` is an `Option (Entry V)`, a `*node` is a `node V`, whose
  constructor `node.nil` is the nil pointer;
* a Go panic (index out of range, nil dereference) is the result `none` of a
  function returning `Option`;
* the two nested loops `for i := 0; i < len(key); i++ { for j := 7; j >= 0; j-- {`
  are a recursion over the list `steps key` of the triples `(i, j, key[i])`
  in the order in which the loops visit them.
-/

namespace btrie

/-- A byte of a key. -/
abbrev Byte := Fin 256

/-- The Go struct `Entry`: a key and a value (`interface{}`, `none` is `nil`). -/
structure Entry (V : Type) where
  key : List Byte
  value : Option V
deriving DecidableEq, Repr

/-- The Go type `*node`: `nil`, or a pointer to a node with the two children
`next[0]`, `next[1]` and the occupant `leaf` (a `*Entry`). -/
inductive node (V : Type) where
  | nil : node V
  | mk (next0 next1 : node V) (leaf : Option (Entry V)) : node V
deriving DecidableEq, Repr

/-- The Go struct `BTrie`.  In the source `root` is an embedded `node` value,
so `&self.root` is never nil: the root of every trie built from `New` has the
form `node.mk ..`. -/
structure BTrie (V : Type) where
  root : node V
  size : Int
deriving DecidableEq, Repr

variable {V : Type}

/-- The test `p == nil` on a `*node`. -/
def node.isNil : node V → Bool
  | node.nil => true
  | node.mk _ _ _ => false

/-- The field read `n.next[bit]` (`bit = false` is index 0). -/
def node.next : node V → Bool → node V
  | node.nil, _ => node.nil
  | node.mk n0 _ _, false => n0
  | node.mk _ n1 _, true => n1

/-- The field read `n.leaf`. -/
def node.leaf : node V → Option (Entry V)
  | node.nil => none
  | node.mk _ _ l => l

/-- The assignment `n.next[bit] = c`. -/
def node.setNext : node V → Bool → node V → node V
  | node.nil, _, _ => node.nil
  | node.mk _ n1 l, false, c => node.mk c n1 l
  | node.mk n0 _ l, true, c => node.mk n0 c l

/-- The assignment `n.leaf = l`. -/
def node.setLeaf : node V → Option (Entry V) → node V
  | node.nil, _ => node.nil
  | node.mk n0 n1 _, l => node.mk n0 n1 l

/-- The composite literal `&node{}`. -/
def emptyNode : node V := node.mk node.nil node.nil none

/-- The composite literal `&node{leaf: l}`. -/
def leafNode (l : Option (Entry V)) : node V := node.mk node.nil node.nil l

/-- The constructor `New`: `&BTrie{}`. -/
def New : BTrie V := ⟨emptyNode, 0⟩

/-- The method `Size`. -/
def Size (t : BTrie V) : Int := t.size

/-- The expression `(b >> byte(j)) & 1`, as a boolean (`true` is 1). -/
def bitOf (b : Byte) (j : Nat) : Bool := (b.val >>> j) &&& 1 == 1

/-- The iterations of the inner loop `for j := 7; j >= 0; j--` for the byte
`b = key[i]`. -/
def byteSteps (i : Nat) (b : Byte) : List (Nat × Nat × Byte) :=
  [(i, 7, b), (i, 6, b), (i, 5, b), (i, 4, b), (i, 3, b), (i, 2, b), (i, 1, b), (i, 0, b)]

/-- The iterations of the loops over the bytes of a key, the first of them
having index `i`. -/
def stepsFrom : Nat → List Byte → List (Nat × Nat × Byte)
  | _, [] => []
  | i, b :: bs => byteSteps i b ++ stepsFrom (i + 1) bs

/-- The iterations `(i, j, key[i])` of
`for i := 0; i < len(key); i++ { for j := 7; j >= 0; j-- {`, in order. -/
def steps (key : List Byte) : List (Nat × Nat × Byte) := stepsFrom 0 key

/-- The constants `Forward` and `Backwards` of the type `Direction`. -/
inductive Direction where
  | Forward
  | Backwards
deriving DecidableEq, Repr

/-- The Go type `stack`: the top of the stack is the head of the list. -/
abbrev stack (V : Type) := List (node V)

/-- The function `newStack`. -/
def newStack : stack V := []

/-- The method `stack.push`: a nil pointer is not pushed. -/
def push (s : stack V) (val : node V) : stack V :=
  if val.isNil then s else val :: s

/-- The push that `drillDown` performs before it descends from `current`
along `bit`; `st = none` is the call with `stack == nil`, `dir = none` the
call with `dir == nil`. -/
def drillPush (st : Option (stack V)) (dir : Option Direction) (current : node V)
    (bit : Bool) : Option (stack V) :=
  match st with
  | none => none
  | some s =>
    match dir with
    | none => some (push s current)
    | some Direction.Forward => if bit = false then some (push s (current.next true)) else some s
    | some Direction.Backwards => if bit = true then some (push s (current.next false)) else some s

/-- The loop of `drillDown`, from the iteration at the head of the list on:
it returns the node at which the walk stops and the stack. -/
def drillLoop (dir : Option Direction) :
    List (Nat × Nat × Byte) → node V → Option (stack V) → node V × Option (stack V)
  | [], current, st => (current, st)
  | (_, j, b) :: rest, current, st =>
    if (current.next (bitOf b j)).isNil then (current, st)
    else drillLoop dir rest (current.next (bitOf b j)) (drillPush st dir current (bitOf b j))

/-- The test `current.leaf != nil && bytes.Equal(current.leaf.key, key)`. -/
def isMatch (current : node V) (key : List Byte) : Bool :=
  match current.leaf with
  | none => false
  | some e => e.key == key

/-- The method `drillDown`: the closest node, whether it holds `key`, and the
stack after the call. -/
def drillDown (t : BTrie V) (key : List Byte) (st : Option (stack V)) (dir : Option Direction) :
    node V × Bool × Option (stack V) :=
  let r := drillLoop dir (steps key) t.root st
  (r.1, isMatch r.1 key, r.2)

/-- The method `Get`; the result `none` is Go's `nil`. -/
def Get (t : BTrie V) (key : List Byte) : Option V :=
  let r := drillDown t key none none
  if r.2.1 then
    match r.1.leaf with
    | some e => e.value
    | none => none
  else none

/-- The test `n.leaf == nil && n.next[0] == nil && n.next[1] == nil` of `Remove`. -/
def node.isEmpty (n : node V) : Bool :=
  n.leaf.isNone && (n.next false).isNil && (n.next true).isNil

/-- The effect of `Remove` on the subtree at `current` once `drillDown` has
matched: the walk of `drillDown` is repeated, `leaf` is cleared at the node
it stops at, and on the way back each node popped from `parents` is detached
from its parent while it is empty.  The boolean is `true` as long as the
pruning loop has not reached its `break`. -/
def removeLoop : List (Nat × Nat × Byte) → node V → node V × Bool
  | [], current => (current.setLeaf none, true)
  | (_, j, b) :: rest, current =>
    if (current.next (bitOf b j)).isNil then (current.setLeaf none, true)
    else
      let r := removeLoop rest (current.next (bitOf b j))
      if r.2 && r.1.isEmpty then (current.setNext (bitOf b j) node.nil, true)
      else (current.setNext (bitOf b j) r.1, false)

/-- The method `Remove`: the trie after the call and the old value. -/
def Remove (t : BTrie V) (key : List Byte) : BTrie V × Option V :=
  let r := drillDown t key (some newStack) none
  if r.2.1 then
    (⟨(removeLoop (steps key) t.root).1, t.size - 1⟩,
      match r.1.leaf with
      | some e => e.value
      | none => none)
  else (t, none)

/-- Lines 139 to 149 of `Put`, after the loops: the old occupant of
`current` is overwritten or pushed one level down, and the new entry is
installed.  The result is the node and `oldvalue`; `none` is a panic. -/
def putFinish (key : List Byte) (value : Option V) : node V → Option (node V × Option V)
  | node.nil => none
  | node.mk n0 n1 none => some (node.mk n0 n1 (some ⟨key, value⟩), none)
  | node.mk n0 n1 (some e) =>
    if e.key.length = key.length then
      some (node.mk n0 n1 (some ⟨key, value⟩), e.value)
    else
      match e.key[key.length]? with
      | none => none
      | some cb =>
        some (((node.mk n0 n1 (some e)).setNext (bitOf cb 7) (leafNode (some e))).setLeaf
          (some ⟨key, value⟩), none)

/-- The loops of `Put` from the iteration at the head of the list on, followed
by `putFinish` at the node where they stop.  The result is the rebuilt
subtree at `current` and `oldvalue`; `none` is a panic. -/
def putLoop (key : List Byte) (value : Option V) :
    List (Nat × Nat × Byte) → node V → Option (node V × Option V)
  | [], current => putFinish key value current
  | (i, j, b) :: rest, current =>
    match current with
    | node.nil => none
    | node.mk n0 n1 leaf =>
      if ¬ ((node.mk n0 n1 leaf).next (bitOf b j)).isNil then
        (putLoop key value rest ((node.mk n0 n1 leaf).next (bitOf b j))).map
          fun r => ((node.mk n0 n1 leaf).setNext (bitOf b j) r.1, r.2)
      else if ¬ ((node.mk n0 n1 leaf).next (! bitOf b j)).isNil then
        (putLoop key value rest emptyNode).map
          fun r => ((node.mk n0 n1 leaf).setNext (bitOf b j) r.1, r.2)
      else
        match leaf with
        | none => putFinish key value (node.mk n0 n1 leaf)
        | some e =>
          if j = 7 ∧ e.key.length = i then
            (putFinish key value emptyNode).map
              fun r => ((node.mk n0 n1 leaf).setNext (bitOf b j) r.1, r.2)
          else
            match e.key[i]? with
            | none => none
            | some cb =>
              if bitOf cb j ≠ bitOf b j then
                (putFinish key value emptyNode).map
                  fun r => ((((node.mk n0 n1 leaf).setNext (bitOf cb j) (leafNode leaf)).setLeaf
                    none).setNext (bitOf b j) r.1, r.2)
              else
                (putLoop key value rest (leafNode leaf)).map
                  fun r => (((node.mk n0 n1 leaf).setLeaf none).setNext (bitOf b j) r.1, r.2)

/-- The method `Put`: the trie after the call and `oldvalue`; `none` is a
panic.  A nil value makes the call a `Remove`. -/
def Put (t : BTrie V) (key : List Byte) (value : Option V) : Option (BTrie V × Option V) :=
  if value.isNone then some (Remove t key)
  else (putLoop key value (steps key) t.root).map fun r => (⟨r.1, t.size + 1⟩, r.2)

/-- The constant `MaxUint64`. -/
def MaxUint64 : Nat := 2 ^ 64 - 1

/-- The Go struct `TraversalOpts`; `From = none` is a nil slice, `Limit` is a `uint64`. -/
structure TraversalOpts where
  Dir : Direction
  From : Option (List Byte)
  SubtreeOnly : Bool
  Limit : Nat
deriving DecidableEq, Repr

/-- The zero value `TraversalOpts{}`. -/
def defaultOpts : TraversalOpts := ⟨Direction.Forward, none, false, 0⟩

/-- The Go struct `Cursor`; `curr = node.nil` is the nil pointer. -/
structure Cursor (V : Type) where
  curr : node V
  stack : stack V
  opts : TraversalOpts
deriving DecidableEq, Repr

/-- The method `Traverse`. -/
def Traverse (t : BTrie V) (opts : TraversalOpts) : Cursor V :=
  let opts1 : TraversalOpts := if opts.Limit = 0 then { opts with Limit := MaxUint64 } else opts
  match opts1.From with
  | none => ⟨node.nil, push newStack t.root, opts1⟩
  | some src =>
    let r := drillDown t src (if opts1.SubtreeOnly then none else some newStack) (some opts1.Dir)
    ⟨node.nil, push (r.2.2.getD newStack) r.1, opts1⟩

/-- The method `TraverseFully`. -/
def TraverseFully (t : BTrie V) : Cursor V := Traverse t defaultOpts

/-- The index `int(self.opts.Dir)` as a child selector. -/
def Direction.bit : Direction → Bool
  | Direction.Forward => false
  | Direction.Backwards => true

/-- The `for` loop of `HasNext`, run for at most `fuel` iterations; `none`
means that the fuel ran out. -/
def hasNextLoop : Nat → Cursor V → Option (Bool × Cursor V)
  | 0, _ => none
  | fuel + 1, c =>
    if c.stack.length = 0 ∨ c.opts.Limit = 0 then some (false, c)
    else
      match c.stack with
      | [] => some (false, c)
      | top :: s =>
        let s2 := push (push s (top.next (! c.opts.Dir.bit))) (top.next c.opts.Dir.bit)
        if top.leaf.isSome then
          some (true, ⟨top, s2, { c.opts with Limit := c.opts.Limit - 1 }⟩)
        else hasNextLoop fuel ⟨top, s2, c.opts⟩

/-- The number of pointers of a subtree, the nil ones included: a bound on
the number of pops the subtree can cause. -/
def node.weight : node V → Nat
  | node.nil => 1
  | node.mk n0 n1 _ => n0.weight + n1.weight + 1

/-- The number of pointers below a stack. -/
def stackWeight : stack V → Nat
  | [] => 0
  | n :: s => n.weight + stackWeight s

/-- The method `HasNext`: the answer and the cursor after the call.  The loop
gets one iteration per pointer below the stack, and one more; this is enough
for it to return (`HasNext_returns`). -/
def HasNext (c : Cursor V) : Option (Bool × Cursor V) :=
  if ¬ c.curr.isNil then some (true, c)
  else hasNextLoop (stackWeight c.stack + 1) c

/-- The method `Next`: the returned `*Entry` and the cursor after the call;
`none` is the panic of reading `self.curr.leaf` through a nil `curr`. -/
def Next (c : Cursor V) : Option (Option (Entry V) × Cursor V) :=
  match c.curr with
  | node.nil => none
  | node.mk _ _ l => some (l, { c with curr := node.nil })

/-- The caller's loop `for c := ...; c.HasNext(); { e := c.Next(); ... }`, run
for at most `fuel` rounds, collecting the entries; `none` means that the fuel
ran out or that a call panicked or returned a nil entry. -/
def drainLoop : Nat → Cursor V → Option (List (Entry V))
  | 0, _ => none
  | fuel + 1, c =>
    match HasNext c with
    | none => none
    | some (false, _) => some []
    | some (true, c1) =>
      match Next c1 with
      | some (some e, c2) => (drainLoop fuel c2).map fun es => e :: es
      | _ => none

/-- The entries a cursor yields when it is iterated until `HasNext` is false. -/
def drain (c : Cursor V) : Option (List (Entry V)) :=
  drainLoop (c.curr.weight + stackWeight c.stack + 1) c

/-- The bit a loop iteration reads from the key. -/
def stepBit (s : Nat × Nat × Byte) : Bool := bitOf s.2.2 s.2.1

/-- The bit string of a key: the bits of byte 0 first, each byte from its most
significant bit down. -/
def bits (key : List Byte) : List Bool := (steps key).map stepBit

/-- The entries below a pointer, in the order of a forward depth-first walk:
the occupant of a node, then the subtree `next[0]`, then the subtree `next[1]`. -/
def node.entries : node V → List (Entry V)
  | node.nil => []
  | node.mk n0 n1 leaf => leaf.toList ++ (n0.entries ++ n1.entries)

/-- Whether a node has a non-nil child. -/
def node.hasChild (n : node V) : Bool :=
  !(n.next false).isNil || !(n.next true).isNil

/-- The structural invariant of the subtree below a pointer reached from the
root along the bits `p`: the key of every occupant starts with the path to its
node, an occupant of a node that has a child has exactly the path as its key,
and no occupant holds a nil value. -/
def WF : List Bool → node V → Prop
  | _, node.nil => True
  | p, node.mk n0 n1 leaf =>
    (∀ e, leaf = some e →
      p <+: bits e.key ∧ ((node.mk n0 n1 leaf).hasChild = true → bits e.key = p) ∧
        e.value.isSome = true) ∧
    WF (p ++ [false]) n0 ∧ WF (p ++ [true]) n1

/-- The tries that `New` followed by calls of `Put` and `Remove` can produce. -/
inductive Reachable : BTrie V → Prop
  | init : Reachable New
  | put (t t2 : BTrie V) (key : List Byte) (value old : Option V) :
      Reachable t → Put t key value = some (t2, old) → Reachable t2
  | remove (t : BTrie V) (key : List Byte) : Reachable t → Reachable (Remove t key).1

/-- Byte-lexicographic order on keys, `bytes.Compare(a, b) < 0`: the first
differing byte decides, and a strict prefix comes first. -/
def keyLt : List Byte → List Byte → Bool
  | [], [] => false
  | [], _ :: _ => true
  | _ :: _, [] => false
  | a :: as, b :: bs => decide (a < b) || (a == b && keyLt as bs)

/-- What a run of the loops of `Put` from the node `cur` at path `p` must
deliver: no panic, a non-nil node that satisfies the invariant, whose entries
are those of `cur` with another key together with the new entry, and as
`oldvalue` the value `cur` held under the key. -/
def PutPost (K : List Byte) (v : Option V) (p : List Bool) (cur : node V)
    (res : Option (node V × Option V)) : Prop :=
  ∃ r old, res = some (r, old) ∧ r.isNil = false ∧ WF p r ∧
    (∀ e, e ∈ r.entries ↔ (e ∈ cur.entries ∧ e.key ≠ K) ∨ e = ⟨K, v⟩) ∧
    (∀ w, old = some w ↔ ∃ e ∈ cur.entries, e.key = K ∧ e.value = some w)

/-- Successive calls of `Put` with non-nil values, as in the loops
`for k, v := range data { trie.SPut(k, v) }` of the tests; `none` is a panic. -/
def putAll : BTrie V → List (List Byte × V) → Option (BTrie V)
  | t, [] => some t
  | t, (k, v) :: rest =>
    match Put t k (some v) with
    | some (t2, _) => putAll t2 rest
    | none => none

/-- The trie of `example/example.go`, with numbers for the values: the keys
are "perf", "winter", "fall", "win" and "fallout", put in this order. -/
def exampleTrie : BTrie Nat :=
  (putAll New
    [([112, 101, 114, 102], 1), ([119, 105, 110, 116, 101, 114], 2), ([102, 97, 108, 108], 3),
      ([119, 105, 110], 4), ([102, 97, 108, 108, 111, 117, 116], 5)]).getD New

/-- The trie of case 2 of `TestEdgeCases`: the key `[0]`, then the key `[0, 0]`. -/
def edgeTrie : BTrie Nat := (putAll New [([0], 1), ([0, 0], 2)]).getD New

/-- The entries below a pointer in the order in which a cursor of direction
`dir` visits them: the occupant of a node, then the subtree of the near child
`next[int(dir)]`, then the subtree of the far child. -/
def node.walk (dir : Direction) : node V → List (Entry V)
  | node.nil => []
  | node.mk n0 n1 leaf =>
    leaf.toList ++
      (match dir with
      | Direction.Forward => n0.walk dir ++ n1.walk dir
      | Direction.Backwards => n1.walk dir ++ n0.walk dir)

/-- The entries a stack of pending subtrees stands for, the top first. -/
def stackWalk (dir : Direction) : stack V → List (Entry V)
  | [] => []
  | n :: s => n.walk dir ++ stackWalk dir s

/-- The trie of the end of `TestBasicCrud`: the same key put twice, with two values. -/
def updatedTrie : BTrie Nat := (putAll New [([0], 1), ([0], 2)]).getD New

/-- The pointer reached from a pointer by following child bits; nil when the
path leaves the tree. -/
def node.sub : node V → List Bool → node V
  | n, [] => n
  | n, b :: q => (n.next b).sub q

/-- No dead node at or below a pointer: every node of the subtree hosts an
entry or has a non-nil child. -/
def Live : node V → Prop
  | node.nil => True
  | node.mk n0 n1 leaf => (node.mk n0 n1 leaf).isEmpty = false ∧ Live n0 ∧ Live n1

/-- No dead node strictly below a node: the condition on the root, which may
itself be empty. -/
def LiveBelow (n : node V) : Prop := Live (n.next false) ∧ Live (n.next true)

/-- The trie has a root, and every other node of it that hosts no entry has a
non-nil child. -/
def NoDeadNodes (t : BTrie V) : Prop :=
  t.root.isNil = false ∧
    ∀ q, q ≠ [] → (t.root.sub q).isNil = false → (t.root.sub q).leaf = none →
      (t.root.sub q).hasChild = true

theorem bitOf_eq (b : Byte) (j : Nat) : bitOf b j = decide (b.val / 2 ^ j % 2 = 1) := by
  unfold bitOf
  rw [Nat.shiftRight_eq_div_pow, Nat.and_one_is_mod]
  by_cases h : b.val / 2 ^ j % 2 = 1 <;> simp [h]

theorem half_ext (x y m : Nat) (h : x / (2 * m) = y / (2 * m))
    (hb : x / m % 2 = 1 ↔ y / m % 2 = 1) : x / m = y / m := by
  have hx : x / (2 * m) = x / m / 2 := by rw [Nat.mul_comm, Nat.div_div_eq_div_mul]
  have hy : y / (2 * m) = y / m / 2 := by rw [Nat.mul_comm, Nat.div_div_eq_div_mul]
  rw [hx, hy] at h
  omega

theorem nat_bits_ext (x y : Nat) (hx : x < 256) (hy : y < 256)
    (h0 : x / 1 % 2 = 1 ↔ y / 1 % 2 = 1)
    (h1 : x / 2 % 2 = 1 ↔ y / 2 % 2 = 1)
    (h2 : x / 4 % 2 = 1 ↔ y / 4 % 2 = 1)
    (h3 : x / 8 % 2 = 1 ↔ y / 8 % 2 = 1)
    (h4 : x / 16 % 2 = 1 ↔ y / 16 % 2 = 1)
    (h5 : x / 32 % 2 = 1 ↔ y / 32 % 2 = 1)
    (h6 : x / 64 % 2 = 1 ↔ y / 64 % 2 = 1)
    (h7 : x / 128 % 2 = 1 ↔ y / 128 % 2 = 1) : x = y := by
  have e8 : x / (2 * 128) = y / (2 * 128) := by
    rw [Nat.div_eq_of_lt hx, Nat.div_eq_of_lt hy]
  have e7 := half_ext x y 128 e8 h7
  have e6 := half_ext x y 64 e7 h6
  have e5 := half_ext x y 32 e6 h5
  have e4 := half_ext x y 16 e5 h4
  have e3 := half_ext x y 8 e4 h3
  have e2 := half_ext x y 4 e3 h2
  have e1 := half_ext x y 2 e2 h1
  have e0 := half_ext x y 1 e1 h0
  simpa using e0

theorem byte_ext (x y : Byte) (h : ∀ j, j < 8 → bitOf x j = bitOf y j) : x = y := by
  have h0 := h 0 (by omega)
  have h1 := h 1 (by omega)
  have h2 := h 2 (by omega)
  have h3 := h 3 (by omega)
  have h4 := h 4 (by omega)
  have h5 := h 5 (by omega)
  have h6 := h 6 (by omega)
  have h7 := h 7 (by omega)
  rw [bitOf_eq, bitOf_eq, decide_eq_decide] at h0 h1 h2 h3 h4 h5 h6 h7
  apply Fin.ext
  exact nat_bits_ext x.val y.val x.isLt y.isLt h0 h1 h2 h3 h4 h5 h6 h7
theorem stepsFrom_length (i : Nat) (key : List Byte) : (stepsFrom i key).length = 8 * key.length := by
  induction key generalizing i with
  | nil => simp [stepsFrom]
  | cons b bs ih => simp [stepsFrom, byteSteps, ih]; omega

theorem stepsFrom_getElem? (i d : Nat) (key : List Byte) :
    (stepsFrom i key)[d]? = (key[d / 8]?).map fun b => (i + d / 8, 7 - d % 8, b) := by
  induction key generalizing i d with
  | nil => simp [stepsFrom]
  | cons b bs ih =>
    rw [stepsFrom]
    by_cases hd : d < 8
    · rw [List.getElem?_append_left (by simpa [byteSteps] using hd)]
      interval_cases d <;> simp [byteSteps]
    · have h8 : (byteSteps i b).length = 8 := by simp [byteSteps]
      rw [List.getElem?_append_right (by omega), ih, h8]
      have e1 : d / 8 = (d - 8) / 8 + 1 := by omega
      have e2 : (d - 8) % 8 = d % 8 := by omega
      rw [e1, List.getElem?_cons_succ, e2]
      congr 1
      funext b
      congr 1
      omega

theorem steps_length (key : List Byte) : (steps key).length = 8 * key.length :=
  stepsFrom_length 0 key

theorem bits_length (key : List Byte) : (bits key).length = 8 * key.length := by
  simp [bits, steps_length]

theorem steps_getElem? (d : Nat) (key : List Byte) :
    (steps key)[d]? = (key[d / 8]?).map fun b => (d / 8, 7 - d % 8, b) := by
  simpa using stepsFrom_getElem? 0 d key

theorem bits_getElem? (d : Nat) (key : List Byte) :
    (bits key)[d]? = (key[d / 8]?).map fun b => bitOf b (7 - d % 8) := by
  simp [bits, List.getElem?_map, steps_getElem?, stepBit, Function.comp_def]

theorem bits_injective (a b : List Byte) (h : bits a = bits b) : a = b := by
  have hl : a.length = b.length := by
    have := congrArg List.length h
    simp only [bits_length] at this
    omega
  apply List.ext_getElem hl
  intro n h1 h2
  apply byte_ext
  intro j hj
  have hd := congrArg (fun l => l[8 * n + (7 - j)]?) h
  simp only [bits_getElem?] at hd
  have e1 : (8 * n + (7 - j)) / 8 = n := by omega
  have e2 : 7 - (8 * n + (7 - j)) % 8 = j := by omega
  rw [e1, e2, List.getElem?_eq_getElem h1, List.getElem?_eq_getElem h2] at hd
  simpa using hd

theorem isNil_iff (n : node V) : n.isNil = true ↔ n = node.nil := by
  cases n <;> simp [node.isNil]

theorem entries_of_isNil (n : node V) (h : n.isNil = true) : n.entries = [] := by
  cases n <;> simp_all [node.isNil, node.entries]

theorem mem_entries_iff (n : node V) (b : Bool) (e : Entry V) :
    e ∈ n.entries ↔ n.leaf = some e ∨ e ∈ (n.next b).entries ∨ e ∈ (n.next (!b)).entries := by
  cases n with
  | nil => simp [node.entries, node.leaf, node.next]
  | mk n0 n1 l =>
    cases b <;> cases l <;> simp [node.entries, node.leaf, node.next, or_comm, eq_comm]

theorem hasChild_iff (n : node V) (b : Bool) :
    n.hasChild = true ↔ (n.next b).isNil = false ∨ (n.next (!b)).isNil = false := by
  cases b <;> simp [node.hasChild, or_comm]

theorem WF_iff (p : List Bool) (n : node V) (b : Bool) (hn : n.isNil = false) :
    WF p n ↔
      (∀ e, n.leaf = some e →
        p <+: bits e.key ∧ (n.hasChild = true → bits e.key = p) ∧ e.value.isSome = true) ∧
      WF (p ++ [b]) (n.next b) ∧ WF (p ++ [!b]) (n.next (!b)) := by
  cases n with
  | nil => simp [node.isNil] at hn
  | mk n0 n1 l =>
    cases b
    · simp [WF, node.leaf, node.next]
    · simp only [WF, node.leaf, node.next, Bool.not_true]
      constructor
      · rintro ⟨h1, h2, h3⟩; exact ⟨h1, h3, h2⟩
      · rintro ⟨h1, h2, h3⟩; exact ⟨h1, h3, h2⟩

theorem WF_nil (p : List Bool) : WF p (node.nil : node V) := by simp [WF]

theorem WF_of_isNil (p : List Bool) (n : node V) (h : n.isNil = true) : WF p n := by
  cases n <;> simp_all [node.isNil, WF]

theorem WF_next (p : List Bool) (n : node V) (b : Bool) (h : WF p n) : WF (p ++ [b]) (n.next b) := by
  cases n with
  | nil => simp [node.next, WF]
  | mk n0 n1 l => cases b <;> simp_all [WF, node.next]

theorem WF_leaf (p : List Bool) (n : node V) (e : Entry V) (h : WF p n) (hl : n.leaf = some e) :
    p <+: bits e.key ∧ (n.hasChild = true → bits e.key = p) ∧ e.value.isSome = true := by
  cases n with
  | nil => simp [node.leaf] at hl
  | mk n0 n1 l => exact h.1 e hl

theorem WF_entries_pfx (p : List Bool) (n : node V) (e : Entry V) (h : WF p n)
    (he : e ∈ n.entries) : p <+: bits e.key := by
  induction n generalizing p with
  | nil => simp [node.entries] at he
  | mk n0 n1 l ih0 ih1 =>
    simp only [node.entries, List.mem_append, Option.mem_toList, Option.mem_def] at he
    rcases he with he | he | he
    · exact (h.1 e he).1
    · exact (List.prefix_append p [false]).trans (ih0 _ h.2.1 he)
    · exact (List.prefix_append p [true]).trans (ih1 _ h.2.2 he)

theorem WF_entries_value (p : List Bool) (n : node V) (e : Entry V) (h : WF p n)
    (he : e ∈ n.entries) : e.value.isSome = true := by
  induction n generalizing p with
  | nil => simp [node.entries] at he
  | mk n0 n1 l ih0 ih1 =>
    simp only [node.entries, List.mem_append, Option.mem_toList, Option.mem_def] at he
    rcases he with he | he | he
    · exact (h.1 e he).2.2
    · exact ih0 _ h.2.1 he
    · exact ih1 _ h.2.2 he

/-! ### Accessors after an assignment -/

@[simp] theorem next_setNext_same (n c : node V) (b : Bool) (hn : n.isNil = false) :
    (n.setNext b c).next b = c := by
  cases n <;> cases b <;> simp_all [node.setNext, node.next, node.isNil]

@[simp] theorem next_setNext_other (n c : node V) (b : Bool) :
    (n.setNext b c).next (!b) = n.next (!b) := by
  cases n <;> cases b <;> simp [node.setNext, node.next]

@[simp] theorem next_setNext_other2 (n c : node V) (b : Bool) :
    (n.setNext (!b) c).next b = n.next b := by
  cases n <;> cases b <;> simp [node.setNext, node.next]

@[simp] theorem leaf_setNext (n c : node V) (b : Bool) : (n.setNext b c).leaf = n.leaf := by
  cases n <;> cases b <;> simp [node.setNext, node.leaf]

@[simp] theorem isNil_setNext (n c : node V) (b : Bool) : (n.setNext b c).isNil = n.isNil := by
  cases n <;> cases b <;> simp [node.setNext, node.isNil]

@[simp] theorem next_setLeaf (n : node V) (l : Option (Entry V)) (b : Bool) :
    (n.setLeaf l).next b = n.next b := by
  cases n <;> cases b <;> simp [node.setLeaf, node.next]

@[simp] theorem leaf_setLeaf (n : node V) (l : Option (Entry V)) (hn : n.isNil = false) :
    (n.setLeaf l).leaf = l := by
  cases n <;> simp_all [node.setLeaf, node.leaf, node.isNil]

@[simp] theorem isNil_setLeaf (n : node V) (l : Option (Entry V)) :
    (n.setLeaf l).isNil = n.isNil := by
  cases n <;> simp [node.setLeaf, node.isNil]

/-! ### Prefixes of bit strings -/

theorem pfx_snoc {p l : List Bool} {x : Bool} (h : p <+: l) (hx : l[p.length]? = some x) :
    p ++ [x] <+: l := by
  obtain ⟨t, rfl⟩ := h
  cases t with
  | nil => simp at hx
  | cons y t =>
    rw [List.getElem?_append_right (Nat.le_refl _)] at hx
    simp only [Nat.sub_self, List.getElem?_cons_zero, Option.some.injEq] at hx
    subst hx
    exact ⟨t, by simp⟩

theorem pfx_snoc_ne {p l : List Bool} {x : Bool} (h1 : p ++ [x] <+: l) (h2 : p ++ [!x] <+: l) :
    False := by
  obtain ⟨t1, rfl⟩ := h1
  obtain ⟨t2, h2⟩ := h2
  simp only [List.append_assoc, List.singleton_append, List.append_cancel_left_eq, List.cons.injEq] at h2
  cases x <;> simp at h2

theorem pfx_snoc_not_self {p : List Bool} {x : Bool} (h : p ++ [x] <+: p) : False := by
  have := h.length_le
  simp at this

theorem pfx_eq_of_length {p l : List Bool} (h : p <+: l) (hl : l.length = p.length) : l = p :=
  (h.eq_of_length hl.symm).symm

@[simp] theorem isNil_mk (a b : node V) (l : Option (Entry V)) : (node.mk a b l).isNil = false := rfl

@[simp] theorem isNil_nil : (node.nil : node V).isNil = true := rfl

@[simp] theorem isNil_leafNode (l : Option (Entry V)) : (leafNode l).isNil = false := rfl

@[simp] theorem isNil_emptyNode : (emptyNode : node V).isNil = false := rfl

theorem key_ne_of_other {p : List Bool} {b : Bool} {K : List Byte} {c : node V} {e : Entry V}
    (hK : p ++ [b] <+: bits K) (hc : WF (p ++ [!b]) c) (he : e ∈ c.entries) : e.key ≠ K := by
  intro h
  have h2 := WF_entries_pfx _ _ _ hc he
  rw [h] at h2
  exact pfx_snoc_ne hK h2

theorem key_ne_of_leaf {p : List Bool} {b : Bool} {K : List Byte} {n : node V} {e : Entry V}
    (hK : p ++ [b] <+: bits K) (hn : WF p n) (hl : n.leaf = some e) (hc : n.hasChild = true) :
    e.key ≠ K := by
  intro h
  have h2 := (WF_leaf _ _ _ hn hl).2.1 hc
  rw [h] at h2
  rw [h2] at hK
  exact pfx_snoc_not_self hK

theorem key_ne_of_below {p : List Bool} {b : Bool} {K : List Byte} {c : node V} {e : Entry V}
    (hK : bits K = p) (hc : WF (p ++ [b]) c) (he : e ∈ c.entries) : e.key ≠ K := by
  intro h
  have h2 := WF_entries_pfx _ _ _ hc he
  rw [h, hK] at h2
  exact pfx_snoc_not_self h2

theorem hasChild_of_next {n : node V} {b : Bool} (h : (n.next b).isNil = false) :
    n.hasChild = true := by
  cases b <;> simp_all [node.hasChild]

/-- The node at which the walk of `drillDown` stops depends neither on the
stack nor on the direction. -/
theorem drillLoop_fst (dir : Option Direction) (ps : List (Nat × Nat × Byte)) (cur : node V)
    (st : Option (stack V)) : (drillLoop dir ps cur st).1 = (drillLoop none ps cur none).1 := by
  induction ps generalizing cur st with
  | nil => simp [drillLoop]
  | cons s rest ih =>
    obtain ⟨i, j, b⟩ := s
    simp only [drillLoop]
    split
    · rfl
    · rw [ih]; rfl

/-- Under the invariant, the node at which `drillDown` stops holds the key
exactly when some node of the subtree does. -/
theorem drillLoop_leaf (K : List Byte) (dir : Option Direction) :
    ∀ (ps : List (Nat × Nat × Byte)) (p : List Bool) (cur : node V) (st : Option (stack V)),
      WF p cur → p ++ ps.map stepBit = bits K → ∀ e : Entry V,
        ((drillLoop dir ps cur st).1.leaf = some e ∧ e.key = K) ↔ (e ∈ cur.entries ∧ e.key = K) := by
  intro ps
  induction ps with
  | nil =>
    intro p cur st hwf hp e
    simp only [List.map_nil, List.append_nil] at hp
    simp only [drillLoop]
    rw [mem_entries_iff cur false e]
    constructor
    · rintro ⟨h1, h2⟩; exact ⟨Or.inl h1, h2⟩
    · rintro ⟨h1 | h1 | h1, h2⟩
      · exact ⟨h1, h2⟩
      · exact absurd h2 (key_ne_of_below hp.symm (WF_next p cur false hwf) h1)
      · exact absurd h2 (key_ne_of_below hp.symm (WF_next p cur (!false) hwf) h1)
  | cons s rest ih =>
    intro p cur st hwf hp e
    obtain ⟨i, j, b⟩ := s
    have hK : p ++ [bitOf b j] <+: bits K := by
      refine ⟨rest.map stepBit, ?_⟩
      rw [← hp]
      simp [stepBit]
    simp only [drillLoop]
    rw [mem_entries_iff cur (bitOf b j) e]
    split
    · rename_i hnil
      simp only [entries_of_isNil _ hnil, List.not_mem_nil, false_or]
      constructor
      · rintro ⟨h1, h2⟩; exact ⟨Or.inl h1, h2⟩
      · rintro ⟨h1 | h1, h2⟩
        · exact ⟨h1, h2⟩
        · exact absurd h2 (key_ne_of_other hK (WF_next p cur _ hwf) h1)
    · rename_i hnil
      simp only [Bool.not_eq_true] at hnil
      rw [ih (p ++ [bitOf b j]) _ _ (WF_next p cur _ hwf) (by rw [← hp]; simp [stepBit])]
      constructor
      · rintro ⟨h1, h2⟩; exact ⟨Or.inr (Or.inl h1), h2⟩
      · rintro ⟨h1 | h1 | h1, h2⟩
        · exact absurd h2 (key_ne_of_leaf hK hwf h1 (hasChild_of_next hnil))
        · exact ⟨h1, h2⟩
        · exact absurd h2 (key_ne_of_other hK (WF_next p cur _ hwf) h1)

/-- The value `Get` returns, in terms of the entries of the trie. -/
theorem Get_eq_some_iff (t : BTrie V) (hwf : WF [] t.root) (K : List Byte) (v : V) :
    Get t K = some v ↔ ∃ e ∈ t.root.entries, e.key = K ∧ e.value = some v := by
  have hd := drillLoop_leaf K none (steps K) [] t.root none hwf (by simp [bits])
  unfold Get drillDown isMatch
  simp only
  constructor
  · intro h
    cases hl : (drillLoop none (steps K) t.root none).1.leaf with
    | none => simp [hl] at h
    | some e =>
      simp only [hl] at h
      by_cases hk : e.key = K
      · simp only [hk, beq_self_eq_true, if_true] at h
        exact ⟨e, ((hd e).1 ⟨hl, hk⟩).1, hk, h⟩
      · have : (e.key == K) = false := by simpa using hk
        simp [this] at h
  · rintro ⟨e, he, hk, hv⟩
    have h1 := (hd e).2 ⟨he, hk⟩
    simp [h1.1, hk, hv]

/-- `Get` returns nil exactly when no entry of the trie has the key. -/
theorem Get_eq_none_iff (t : BTrie V) (hwf : WF [] t.root) (K : List Byte) :
    Get t K = none ↔ ∀ e ∈ t.root.entries, e.key ≠ K := by
  constructor
  · intro h e he hk
    have hv := WF_entries_value _ _ _ hwf he
    obtain ⟨v, hv⟩ := Option.isSome_iff_exists.1 hv
    have := (Get_eq_some_iff t hwf K v).2 ⟨e, he, hk, hv⟩
    rw [h] at this
    exact Option.noConfusion this
  · intro h
    cases hg : Get t K with
    | none => rfl
    | some v =>
      obtain ⟨e, he, hk, _⟩ := (Get_eq_some_iff t hwf K v).1 hg
      exact absurd hk (h e he)

theorem drop_cons_facts {K : List Byte} {d i j : Nat} {b : Byte} {rest : List (Nat × Nat × Byte)}
    (h : (steps K).drop d = (i, j, b) :: rest) :
    K[d / 8]? = some b ∧ i = d / 8 ∧ j = 7 - d % 8 ∧ rest = (steps K).drop (d + 1) ∧
      (bits K)[d]? = some (bitOf b j) := by
  have h0 : (steps K)[d]? = some (i, j, b) := by
    have := congrArg (fun l => l[0]?) h
    simpa using this
  have h1 : rest = (steps K).drop (d + 1) := by
    have := congrArg List.tail h
    simpa using this.symm
  rw [steps_getElem?] at h0
  obtain ⟨b2, hb2, hf⟩ := Option.map_eq_some'.1 h0
  simp only [Prod.mk.injEq] at hf
  obtain ⟨hi, hj, hb⟩ := hf
  subst hb
  refine ⟨hb2, hi.symm, hj.symm, h1, ?_⟩
  rw [bits_getElem?, hb2, ← hj]
  rfl

theorem WF_leafNode {q : List Bool} {e : Entry V} (h : q <+: bits e.key)
    (hv : e.value.isSome = true) : WF q (leafNode (some e)) := by
  simp only [leafNode, WF, node.hasChild, node.next, node.isNil, and_true]
  intro e2 he2
  simp only [Option.some.injEq] at he2
  subst he2
  simp [h, hv]

theorem putFinish_empty (K : List Byte) (v : Option V) (hv : v.isSome = true) (q : List Bool)
    (hq : q <+: bits K) : PutPost K v q emptyNode (putFinish K v emptyNode) := by
  refine ⟨leafNode (some ⟨K, v⟩), none, rfl, rfl, WF_leafNode hq hv, ?_, ?_⟩
  · intro e
    simp [leafNode, emptyNode, node.entries, eq_comm]
  · intro w
    simp [emptyNode, node.entries]

theorem putFinish_full (K : List Byte) (v : Option V) (hv : v.isSome = true) (p : List Bool)
    (hp : bits K = p) (cur : node V) (hwf : WF p cur) (hn : cur.isNil = false) :
    PutPost K v p cur (putFinish K v cur) := by
  cases cur with
  | nil => simp [node.isNil] at hn
  | mk n0 n1 leaf =>
    have hb0 : ∀ e ∈ n0.entries, e.key ≠ K := fun e he => key_ne_of_below hp hwf.2.1 he
    have hb1 : ∀ e ∈ n1.entries, e.key ≠ K := fun e he => key_ne_of_below hp hwf.2.2 he
    cases leaf with
    | none =>
      refine ⟨node.mk n0 n1 (some ⟨K, v⟩), none, rfl, rfl, ?_, ?_, ?_⟩
      · refine ⟨?_, hwf.2.1, hwf.2.2⟩
        intro e he
        simp only [Option.some.injEq] at he
        subst he
        simp [hp, hv]
      · intro e
        simp only [node.entries, Option.toList_some, List.singleton_append, List.mem_cons,
          List.mem_append, Option.toList_none, List.nil_append]
        constructor
        · rintro (h | h | h)
          · exact Or.inr h
          · exact Or.inl ⟨Or.inl h, hb0 e h⟩
          · exact Or.inl ⟨Or.inr h, hb1 e h⟩
        · rintro (⟨h | h, _⟩ | h)
          · exact Or.inr (Or.inl h)
          · exact Or.inr (Or.inr h)
          · exact Or.inl h
      · intro w
        simp only [node.entries, Option.toList_none, List.nil_append, List.mem_append]
        constructor
        · intro h; exact Option.noConfusion h
        · rintro ⟨e, h | h, hk, _⟩
          · exact absurd hk (hb0 e h)
          · exact absurd hk (hb1 e h)
    | some e0 =>
      obtain ⟨hpfx, hch, hval⟩ := hwf.1 e0 rfl
      by_cases hlen : e0.key.length = K.length
      · have hkey : e0.key = K := by
          apply bits_injective
          rw [hp]
          apply pfx_eq_of_length hpfx
          rw [bits_length, ← hp, bits_length, hlen]
        refine ⟨node.mk n0 n1 (some ⟨K, v⟩), e0.value, ?_, rfl, ?_, ?_, ?_⟩
        · simp [putFinish, hlen]
        · refine ⟨?_, hwf.2.1, hwf.2.2⟩
          intro e he
          simp only [Option.some.injEq] at he
          subst he
          simp [hp, hv]
        · intro e
          simp only [node.entries, Option.toList_some, List.singleton_append, List.mem_cons,
            List.mem_append]
          constructor
          · rintro (h | h | h)
            · exact Or.inr h
            · exact Or.inl ⟨Or.inr (Or.inl h), hb0 e h⟩
            · exact Or.inl ⟨Or.inr (Or.inr h), hb1 e h⟩
          · rintro (⟨h | h | h, hk⟩ | h)
            · rw [h] at hk; exact absurd hkey hk
            · exact Or.inr (Or.inl h)
            · exact Or.inr (Or.inr h)
            · exact Or.inl h
        · intro w
          simp only [node.entries, Option.toList_some, List.singleton_append, List.mem_cons,
            List.mem_append]
          constructor
          · intro h
            exact ⟨e0, Or.inl rfl, hkey, h⟩
          · rintro ⟨e, h | h | h, hk, hw⟩
            · rw [← h]; exact hw
            · exact absurd hk (hb0 e h)
            · exact absurd hk (hb1 e h)
      · have hne : bits e0.key ≠ p := by
          intro h
          apply hlen
          have := congrArg List.length h
          rw [← hp, bits_length, bits_length] at this
          omega
        have hnc : (node.mk n0 n1 (some e0)).hasChild = false := by
          cases hc : (node.mk n0 n1 (some e0)).hasChild with
          | false => rfl
          | true => exact absurd (hch hc) hne
        simp only [node.hasChild, node.next, Bool.or_eq_false_iff, Bool.not_eq_false'] at hnc
        rw [isNil_iff, isNil_iff] at hnc
        obtain ⟨h0, h1⟩ := hnc
        subst h0 h1
        have hplen : p.length = 8 * K.length := by rw [← hp, bits_length]
        have hlt : 8 * K.length < 8 * e0.key.length := by
          have h1 := hpfx.length_le
          rw [bits_length, hplen] at h1
          omega
        have hidx : K.length < e0.key.length := by omega
        have hget : e0.key[K.length]? = some (e0.key[K.length]) := List.getElem?_eq_getElem hidx
        have hbit : (bits e0.key)[p.length]? = some (bitOf (e0.key[K.length]) 7) := by
          rw [bits_getElem?, hplen]
          have e1 : 8 * K.length / 8 = K.length := by omega
          have e2 : 7 - 8 * K.length % 8 = 7 := by omega
          rw [e1, e2, hget]
          rfl
        have hsn := pfx_snoc hpfx hbit
        have hk0 : e0.key ≠ K := fun h => hlen (by rw [h])
        refine ⟨((node.mk node.nil node.nil (some e0)).setNext (bitOf (e0.key[K.length]) 7)
            (leafNode (some e0))).setLeaf (some ⟨K, v⟩), none, ?_, ?_, ?_, ?_, ?_⟩
        · simp [putFinish, hlen, hget]
        · simp
        · rw [WF_iff p _ (bitOf (e0.key[K.length]) 7) (by simp)]
          refine ⟨?_, ?_, ?_⟩
          · intro e he
            rw [leaf_setLeaf _ _ (by simp)] at he
            simp only [Option.some.injEq] at he
            subst he
            simp [hp, hv]
          · rw [next_setLeaf, next_setNext_same _ _ _ (by simp)]
            exact WF_leafNode hsn hval
          · rw [next_setLeaf, next_setNext_other]
            simp [node.next, WF]
            cases (bitOf (e0.key[K.length]) 7) <;> simp [node.next, WF]
        · intro e
          rw [mem_entries_iff _ (bitOf (e0.key[K.length]) 7) e,
            leaf_setLeaf _ _ (by simp), next_setLeaf, next_setLeaf,
            next_setNext_same _ _ _ (by simp), next_setNext_other]
          have hoth : ((node.mk node.nil node.nil (some e0) : node V).next
              (!bitOf (e0.key[K.length]) 7)).entries = [] := by
            cases (bitOf (e0.key[K.length]) 7) <;> simp [node.next, node.entries]
          rw [hoth]
          simp only [leafNode, node.entries, Option.toList_some, List.append_nil,
            List.mem_singleton, List.not_mem_nil, or_false, Option.some.injEq]
          constructor
          · rintro (h | h)
            · exact Or.inr h.symm
            · exact Or.inl ⟨h, by rw [h]; exact hk0⟩
          · rintro (⟨h, _⟩ | h)
            · exact Or.inr h
            · exact Or.inl h.symm
        · intro w
          simp only [node.entries, Option.toList_some, List.append_nil, List.mem_singleton]
          constructor
          · intro h; exact Option.noConfusion h
          · rintro ⟨e, h, hk, _⟩
            rw [h] at hk
            exact absurd hk hk0

theorem put_lift (K : List Byte) (v : Option V) (p : List Bool) (bit : Bool)
    (cur cur2 c : node V) (res : Option (node V × Option V))
    (hK : p ++ [bit] <+: bits K) (hn : cur2.isNil = false)
    (hleaf : ∀ e, cur2.leaf = some e → bits e.key = p ∧ e.value.isSome = true)
    (hother : WF (p ++ [!bit]) (cur2.next (!bit)))
    (hent : ∀ e, e ∈ cur.entries ↔
      (cur2.leaf = some e ∨ e ∈ c.entries ∨ e ∈ (cur2.next (!bit)).entries))
    (hchild : PutPost K v (p ++ [bit]) c res) :
    PutPost K v p cur (res.map fun r => (cur2.setNext bit r.1, r.2)) := by
  obtain ⟨r, old, rfl, hrn, hrwf, hrent, hrold⟩ := hchild
  have hl : ∀ e, cur2.leaf = some e → e.key ≠ K := by
    intro e he hk
    have h1 := (hleaf e he).1
    rw [hk] at h1
    rw [h1] at hK
    exact pfx_snoc_not_self hK
  have ho : ∀ e, e ∈ (cur2.next (!bit)).entries → e.key ≠ K :=
    fun e he => key_ne_of_other hK hother he
  refine ⟨cur2.setNext bit r, old, rfl, by simp [hn], ?_, ?_, ?_⟩
  · rw [WF_iff p _ bit (by simp [hn])]
    rw [leaf_setNext, next_setNext_same _ _ _ hn, next_setNext_other]
    refine ⟨?_, hrwf, hother⟩
    intro e he
    obtain ⟨h1, h2⟩ := hleaf e he
    refine ⟨?_, fun _ => h1, h2⟩
    rw [h1]
  · intro e
    rw [mem_entries_iff _ bit e, leaf_setNext, next_setNext_same _ _ _ hn, next_setNext_other,
      hrent e, hent e]
    constructor
    · rintro (h | (⟨h, hk⟩ | h) | h)
      · exact Or.inl ⟨Or.inl h, hl e h⟩
      · exact Or.inl ⟨Or.inr (Or.inl h), hk⟩
      · exact Or.inr h
      · exact Or.inl ⟨Or.inr (Or.inr h), ho e h⟩
    · rintro (⟨h | h | h, hk⟩ | h)
      · exact Or.inl h
      · exact Or.inr (Or.inl (Or.inl ⟨h, hk⟩))
      · exact Or.inr (Or.inr h)
      · exact Or.inr (Or.inl (Or.inr h))
  · intro w
    rw [hrold w]
    constructor
    · rintro ⟨e, he, hk, hw⟩
      exact ⟨e, (hent e).2 (Or.inr (Or.inl he)), hk, hw⟩
    · rintro ⟨e, he, hk, hw⟩
      rcases (hent e).1 he with h | h | h
      · exact absurd hk (hl e h)
      · exact ⟨e, h, hk, hw⟩
      · exact absurd hk (ho e h)

/-- The loops of `Put`, started at a node that satisfies the invariant, do not
panic and deliver `PutPost`. -/
theorem putLoop_spec (K : List Byte) (v : Option V) (hv : v.isSome = true) :
    ∀ (ps : List (Nat × Nat × Byte)) (p : List Bool) (cur : node V),
      (steps K).drop p.length = ps → p <+: bits K → WF p cur → cur.isNil = false →
        PutPost K v p cur (putLoop K v ps cur) := by
  intro ps
  induction ps with
  | nil =>
    intro p cur hps hpK hwf hn
    have hlen : (bits K).length = p.length := by
      have h1 := hpK.length_le
      have h2 : (steps K).length ≤ p.length := by simpa using hps
      rw [steps_length] at h2
      rw [bits_length] at h1 ⊢
      omega
    simp only [putLoop]
    exact putFinish_full K v hv p (pfx_eq_of_length hpK hlen) cur hwf hn
  | cons s rest ih =>
    intro p cur hps hpK hwf hn
    obtain ⟨i, j, b⟩ := s
    obtain ⟨hKb, hi, hj, hrest, hbit⟩ := drop_cons_facts hps
    have hK : p ++ [bitOf b j] <+: bits K := pfx_snoc hpK hbit
    have hrest2 : (steps K).drop (p ++ [bitOf b j]).length = rest := by
      rw [hrest]; simp
    cases cur with
    | nil => simp at hn
    | mk n0 n1 leaf =>
      simp only [putLoop]
      by_cases h1 : ((node.mk n0 n1 leaf).next (bitOf b j)).isNil = true
      · by_cases h2 : ((node.mk n0 n1 leaf).next (!bitOf b j)).isNil = true
        · rw [if_neg (not_not.2 h1), if_neg (not_not.2 h2)]
          obtain ⟨hn0, hn1⟩ : n0 = node.nil ∧ n1 = node.nil := by
            cases hb : bitOf b j <;> simp [hb, node.next, isNil_iff] at h1 h2 <;> simp [h1, h2]
          subst hn0 hn1
          cases leaf with
          | none => exact putFinish_empty K v hv p hpK
          | some e =>
            obtain ⟨hpfx, -, hval⟩ := hwf.1 e rfl
            have hle : p.length ≤ 8 * e.key.length := by
              have := hpfx.length_le
              rwa [bits_length] at this
            simp only
            by_cases hc : j = 7 ∧ e.key.length = i
            · rw [if_pos hc]
              have hbe : bits e.key = p := by
                apply pfx_eq_of_length hpfx
                rw [bits_length]
                omega
              apply put_lift K v p (bitOf b j) _ _ emptyNode _ hK (by simp)
              · intro e2 he2
                simp only [node.leaf, Option.some.injEq] at he2
                subst he2
                exact ⟨hbe, hval⟩
              · exact WF_of_isNil _ _ h2
              · intro e2
                rw [mem_entries_iff _ (bitOf b j) e2, entries_of_isNil _ h1]
                simp [emptyNode, node.entries]
              · exact putFinish_empty K v hv _ hK
            · rw [if_neg hc]
              have hlt : p.length < 8 * e.key.length := by
                rcases Nat.lt_or_ge p.length (8 * e.key.length) with h | h
                · exact h
                · exfalso; apply hc; omega
              have hidx : i < e.key.length := by omega
              have hget : e.key[i]? = some (e.key[i]) := List.getElem?_eq_getElem hidx
              have hcbit : (bits e.key)[p.length]? = some (bitOf (e.key[i]) j) := by
                rw [bits_getElem?, ← hi, ← hj, hget]
                rfl
              have hsn := pfx_snoc hpfx hcbit
              simp only [hget]
              by_cases hcb : bitOf (e.key[i]) j = bitOf b j
              · rw [if_neg (not_not.2 hcb)]
                rw [hcb] at hsn
                apply put_lift K v p (bitOf b j) _ _ (leafNode (some e)) _ hK (by simp)
                · intro e2 he2
                  simp [node.setLeaf, node.leaf] at he2
                · rw [next_setLeaf]
                  exact WF_of_isNil _ _ h2
                · intro e2
                  rw [next_setLeaf, entries_of_isNil _ h2]
                  simp [node.setLeaf, node.leaf, node.entries, leafNode]
                · exact ih _ _ hrest2 hK (WF_leafNode hsn hval) (by simp)
              · rw [if_pos hcb]
                have hnb : bitOf (e.key[i]) j = !bitOf b j := by
                  cases h5 : bitOf (e.key[i]) j <;> cases h6 : bitOf b j <;> simp_all
                rw [hnb] at hsn ⊢
                apply put_lift K v p (bitOf b j) _ _ emptyNode _ hK (by simp)
                · intro e2 he2
                  rw [leaf_setLeaf _ _ (by simp)] at he2
                  exact Option.noConfusion he2
                · rw [next_setLeaf, next_setNext_same _ _ _ (by simp)]
                  exact WF_leafNode hsn hval
                · intro e2
                  rw [next_setLeaf, next_setNext_same _ _ _ (by simp),
                    leaf_setLeaf _ _ (by simp)]
                  simp [node.entries, leafNode, emptyNode]
                · exact putFinish_empty K v hv _ hK
        · rw [if_neg (not_not.2 h1), if_pos h2]
          simp only [Bool.not_eq_true] at h2
          apply put_lift K v p (bitOf b j) _ _ emptyNode _ hK (by simp)
          · intro e he
            have := WF_leaf _ _ _ hwf he
            exact ⟨this.2.1 ((hasChild_iff _ (bitOf b j)).2 (Or.inr h2)), this.2.2⟩
          · exact WF_next _ _ _ hwf
          · intro e
            rw [mem_entries_iff _ (bitOf b j) e, entries_of_isNil _ h1]
            simp [emptyNode, node.entries]
          · exact ih _ _ hrest2 hK (by simp [emptyNode, WF]) (by simp)
      · rw [if_pos h1]
        simp only [Bool.not_eq_true] at h1
        apply put_lift K v p (bitOf b j) _ _ ((node.mk n0 n1 leaf).next (bitOf b j)) _ hK (by simp)
        · intro e he
          have := WF_leaf _ _ _ hwf he
          exact ⟨this.2.1 (hasChild_of_next h1), this.2.2⟩
        · exact WF_next _ _ _ hwf
        · intro e
          exact mem_entries_iff _ (bitOf b j) e
        · exact ih _ _ hrest2 hK (WF_next _ _ _ hwf) h1

theorem entries_of_isEmpty (n : node V) (h : n.isEmpty = true) : n.entries = [] := by
  cases n with
  | nil => rfl
  | mk n0 n1 l =>
    simp only [node.isEmpty, node.leaf, node.next, Bool.and_eq_true, Option.isNone_iff_eq_none,
      isNil_iff] at h
    obtain ⟨⟨h1, h2⟩, h3⟩ := h
    subst h1 h2 h3
    rfl

theorem removeLoop_isNil (ps : List (Nat × Nat × Byte)) (cur : node V) :
    (removeLoop ps cur).1.isNil = cur.isNil := by
  cases ps with
  | nil => simp [removeLoop]
  | cons s rest =>
    obtain ⟨i, j, b⟩ := s
    simp only [removeLoop]
    split
    · simp
    · split <;> simp

theorem filter_key_self {K : List Byte} {l : List (Entry V)} (h : ∀ e ∈ l, e.key ≠ K) :
    l.filter (fun e => decide (e.key ≠ K)) = l := by
  rw [List.filter_eq_self]
  intro e he
  simpa using h e he

/-- Clearing the occupant of a node that holds the key removes exactly that entry. -/
theorem remove_here (K : List Byte) (p : List Bool) (cur : node V) (e0 : Entry V)
    (hwf : WF p cur) (hl : cur.leaf = some e0) (hk : e0.key = K)
    (hb : ∀ (bb : Bool) (e : Entry V), e ∈ (cur.next bb).entries → e.key ≠ K) :
    WF p (cur.setLeaf none) ∧
      (cur.setLeaf none).entries = cur.entries.filter (fun e => decide (e.key ≠ K)) := by
  cases cur with
  | nil => simp [node.leaf] at hl
  | mk n0 n1 l =>
    simp only [node.leaf] at hl
    subst hl
    constructor
    · refine ⟨?_, hwf.2.1, hwf.2.2⟩
      intro e he
      exact Option.noConfusion he
    · have hb0 := hb false
      have hb1 := hb true
      simp only [node.next] at hb0 hb1
      have h0 : (some e0).toList.filter (fun e => decide (e.key ≠ K)) = [] := by simp [hk]
      simp only [node.setLeaf, node.entries, List.filter_append, h0, filter_key_self hb0,
        filter_key_self hb1]
      rfl

/-- Replacing the child on the path of the key by a subtree that lost exactly
the entries with that key does the same to the parent. -/
theorem remove_lift (K : List Byte) (p : List Bool) (bit : Bool) (cur r : node V)
    (hK : p ++ [bit] <+: bits K) (hwf : WF p cur) (hc : (cur.next bit).isNil = false)
    (hrwf : WF (p ++ [bit]) r)
    (hrent : r.entries = (cur.next bit).entries.filter (fun e => decide (e.key ≠ K))) :
    WF p (cur.setNext bit r) ∧
      (cur.setNext bit r).entries = cur.entries.filter (fun e => decide (e.key ≠ K)) := by
  have hn : cur.isNil = false := by
    cases cur with
    | nil => simp [node.next] at hc
    | mk _ _ _ => rfl
  have ho : ∀ e ∈ (cur.next (!bit)).entries, e.key ≠ K :=
    fun e he => key_ne_of_other hK (WF_next _ _ _ hwf) he
  have hl : ∀ e, cur.leaf = some e → e.key ≠ K :=
    fun e he => key_ne_of_leaf hK hwf he (hasChild_of_next hc)
  constructor
  · rw [WF_iff p _ bit (by simp [hn]), leaf_setNext, next_setNext_same _ _ _ hn,
      next_setNext_other]
    refine ⟨?_, hrwf, WF_next _ _ _ hwf⟩
    intro e he
    obtain ⟨h1, h2, h3⟩ := WF_leaf _ _ _ hwf he
    exact ⟨h1, fun _ => h2 (hasChild_of_next hc), h3⟩
  · cases cur with
    | nil => simp at hn
    | mk n0 n1 l =>
      have hlf : l.toList.filter (fun e => decide (e.key ≠ K)) = l.toList := by
        apply filter_key_self
        intro e he
        exact hl e (by simpa [node.leaf] using he)
      cases bit
      · simp only [node.next, Bool.not_false] at ho hrent
        simp only [node.setNext, node.entries, List.filter_append, hlf, hrent,
          filter_key_self ho]
      · simp only [node.next, Bool.not_true] at ho hrent
        simp only [node.setNext, node.entries, List.filter_append, hlf, hrent,
          filter_key_self ho]

/-- When `drillDown` has matched, the rebuild of `Remove` keeps the invariant
and removes exactly the entry of the key. -/
theorem removeLoop_spec (K : List Byte) :
    ∀ (ps : List (Nat × Nat × Byte)) (p : List Bool) (cur : node V),
      WF p cur → p ++ ps.map stepBit = bits K →
      (∃ e0, (drillLoop none ps cur none).1.leaf = some e0 ∧ e0.key = K) →
        WF p (removeLoop ps cur).1 ∧
          (removeLoop ps cur).1.entries = cur.entries.filter (fun e => decide (e.key ≠ K)) := by
  intro ps
  induction ps with
  | nil =>
    intro p cur hwf hp hm
    obtain ⟨e0, hl, hk⟩ := hm
    simp only [List.map_nil, List.append_nil] at hp
    simp only [drillLoop] at hl
    simp only [removeLoop]
    exact remove_here K p cur e0 hwf hl hk
      (fun bb e he => key_ne_of_below hp.symm (WF_next p cur bb hwf) he)
  | cons s rest ih =>
    intro p cur hwf hp hm
    obtain ⟨i, j, b⟩ := s
    obtain ⟨e0, hl, hk⟩ := hm
    have hK : p ++ [bitOf b j] <+: bits K := by
      refine ⟨rest.map stepBit, ?_⟩
      rw [← hp]
      simp [stepBit]
    simp only [drillLoop] at hl
    simp only [removeLoop]
    by_cases h1 : (cur.next (bitOf b j)).isNil = true
    · rw [if_pos h1] at hl ⊢
      apply remove_here K p cur e0 hwf hl hk
      intro bb e he
      by_cases hbb : bb = bitOf b j
      · subst hbb
        rw [entries_of_isNil _ h1] at he
        simp at he
      · have : bb = !bitOf b j := by
          cases bb <;> cases h : bitOf b j <;> simp_all
        subst this
        exact key_ne_of_other hK (WF_next _ _ _ hwf) he
    · rw [if_neg h1] at hl ⊢
      simp only [Bool.not_eq_true] at h1
      have hrec := ih (p ++ [bitOf b j]) (cur.next (bitOf b j)) (WF_next _ _ _ hwf)
        (by rw [← hp]; simp [stepBit]) ⟨e0, hl, hk⟩
      split
      · rename_i hpr
        simp only [Bool.and_eq_true] at hpr
        apply remove_lift K p (bitOf b j) cur node.nil hK hwf h1 (WF_nil _)
        rw [← hrec.2, entries_of_isEmpty _ hpr.2]
        rfl
      · exact remove_lift K p (bitOf b j) cur _ hK hwf h1 hrec.1 hrec.2

/-- What `Remove` does to a trie that satisfies the invariant. -/
theorem Remove_spec (t : BTrie V) (hwf : WF [] t.root) (K : List Byte) :
    (Remove t K).2 = Get t K ∧ WF [] (Remove t K).1.root ∧
      (Remove t K).1.root.isNil = t.root.isNil ∧
      (Remove t K).1.root.entries = t.root.entries.filter (fun e => decide (e.key ≠ K)) ∧
      (Get t K = none → (Remove t K).1 = t) := by
  have hfst : (drillLoop none (steps K) t.root (some newStack)).1
      = (drillLoop none (steps K) t.root none).1 := drillLoop_fst _ _ _ _
  have hd := drillLoop_leaf K none (steps K) [] t.root none hwf (by simp [bits])
  by_cases hm : isMatch (drillLoop none (steps K) t.root none).1 K = true
  · have hR1 : (Remove t K).1 = ⟨(removeLoop (steps K) t.root).1, t.size - 1⟩ := by
      simp [Remove, drillDown, hfst, hm]
    have hR2 : (Remove t K).2 = Get t K := by
      simp only [Remove, Get, drillDown, hfst, hm, if_true]
    have hex : ∃ e0, (drillLoop none (steps K) t.root none).1.leaf = some e0 ∧ e0.key = K := by
      unfold isMatch at hm
      cases hl : (drillLoop none (steps K) t.root none).1.leaf with
      | none => simp [hl] at hm
      | some e0 =>
        simp only [hl, beq_iff_eq] at hm
        exact ⟨e0, rfl, hm⟩
    have hsp := removeLoop_spec K (steps K) [] t.root hwf (by simp [bits]) hex
    rw [hR1]
    refine ⟨hR2, hsp.1, removeLoop_isNil _ _, hsp.2, ?_⟩
    intro hnone
    exfalso
    obtain ⟨e0, hl, hk⟩ := hex
    have hmem := ((hd e0).1 ⟨hl, hk⟩).1
    exact (Get_eq_none_iff t hwf K).1 hnone e0 hmem hk
  · have hR : Remove t K = (t, none) := by
      simp [Remove, drillDown, hfst, hm]
    have hG : Get t K = none := by
      simp [Get, drillDown, hm]
    rw [hR, hG]
    refine ⟨rfl, hwf, rfl, ?_, fun _ => rfl⟩
    symm
    apply filter_key_self
    intro e he hk
    apply hm
    have := (hd e).2 ⟨he, hk⟩
    simp [isMatch, this.1, hk]

theorem sub_nil (q : List Bool) : (node.nil : node V).sub q = node.nil := by
  induction q with
  | nil => rfl
  | cons b q ih => simpa [node.sub, node.next] using ih

theorem key_eq_of_filter_nil {K : List Byte} {l : List (Entry V)}
    (h : l.filter (fun e => decide (e.key ≠ K)) = []) : ∀ e ∈ l, e.key = K := by
  intro e he
  by_contra hk
  have : e ∈ l.filter (fun e => decide (e.key ≠ K)) := List.mem_filter.2 ⟨he, by simpa using hk⟩
  rw [h] at this
  simp at this

/-- Every node that the pruning of `Remove` detaches lies on the path of the
removed key, and no node of its subtree hosts an entry with another key. -/
theorem removeLoop_detached (K : List Byte) :
    ∀ (ps : List (Nat × Nat × Byte)) (p : List Bool) (cur : node V),
      WF p cur → p ++ ps.map stepBit = bits K →
      (∃ e0, (drillLoop none ps cur none).1.leaf = some e0 ∧ e0.key = K) →
      ∀ q, (cur.sub q).isNil = false → ((removeLoop ps cur).1.sub q).isNil = true →
        p ++ q <+: bits K ∧ ∀ e ∈ (cur.sub q).entries, e.key = K := by
  have hstop : ∀ (cur : node V) (q : List Bool), (cur.sub q).isNil = false →
      ((cur.setLeaf none).sub q).isNil = true → False := by
    intro cur q h1 h2
    cases q with
    | nil =>
      simp only [node.sub, isNil_setLeaf] at h1 h2
      rw [h1] at h2
      exact Bool.noConfusion h2
    | cons b q =>
      simp only [node.sub, next_setLeaf] at h1 h2
      rw [h1] at h2
      exact Bool.noConfusion h2
  intro ps
  induction ps with
  | nil =>
    intro p cur _ _ _ q h1 h2
    simp only [removeLoop] at h2
    exact (hstop cur q h1 h2).elim
  | cons s rest ih =>
    intro p cur hwf hp hm q h1 h2
    obtain ⟨i, j, b⟩ := s
    obtain ⟨e0, hl, hk⟩ := hm
    have hK : p ++ [bitOf b j] <+: bits K := by
      refine ⟨rest.map stepBit, ?_⟩
      rw [← hp]
      simp [stepBit]
    simp only [drillLoop] at hl
    simp only [removeLoop] at h2
    by_cases hc : (cur.next (bitOf b j)).isNil = true
    · rw [if_pos hc] at h2
      exact (hstop cur q h1 h2).elim
    · rw [if_neg hc] at hl h2
      simp only [Bool.not_eq_true] at hc
      have hcn : cur.isNil = false := by
        cases cur with
        | nil => simp [node.next] at hc
        | mk _ _ _ => rfl
      have hp2 : (p ++ [bitOf b j]) ++ rest.map stepBit = bits K := by
        rw [← hp]; simp [stepBit]
      have hrec := ih (p ++ [bitOf b j]) (cur.next (bitOf b j)) (WF_next _ _ _ hwf) hp2
        ⟨e0, hl, hk⟩
      have hsp := removeLoop_spec K rest (p ++ [bitOf b j]) (cur.next (bitOf b j))
        (WF_next _ _ _ hwf) hp2 ⟨e0, hl, hk⟩
      cases q with
      | nil =>
        exfalso
        simp only [node.sub] at h1 h2
        split at h2
        · rw [isNil_setNext, h1] at h2
          exact Bool.noConfusion h2
        · rw [isNil_setNext, h1] at h2
          exact Bool.noConfusion h2
      | cons b2 q2 =>
        simp only [node.sub] at h1 h2
        by_cases hb : b2 = bitOf b j
        · subst hb
          split at h2
          · rename_i hpr
            simp only [Bool.and_eq_true] at hpr
            cases q2 with
            | nil =>
              refine ⟨by simpa using hK, ?_⟩
              simp only [node.sub]
              apply key_eq_of_filter_nil
              rw [← hsp.2, entries_of_isEmpty _ hpr.2]
            | cons b3 q3 =>
              have hnil : ((removeLoop rest (cur.next (bitOf b j))).1.sub (b3 :: q3)).isNil
                  = true := by
                have hemp := hpr.2
                simp only [node.isEmpty, Bool.and_eq_true, isNil_iff] at hemp
                simp only [node.sub]
                cases b3
                · rw [hemp.1.2, sub_nil]; rfl
                · rw [hemp.2, sub_nil]; rfl
              have := hrec (b3 :: q3) h1 hnil
              simpa using this
          · rw [next_setNext_same _ _ _ hcn] at h2
            have := hrec q2 h1 h2
            simpa using this
        · exfalso
          have hb3 : b2 = !bitOf b j := by
            cases b2 <;> cases h : bitOf b j <;> simp_all
          subst hb3
          split at h2
          · rw [next_setNext_other, h1] at h2
            exact Bool.noConfusion h2
          · rw [next_setNext_other, h1] at h2
            exact Bool.noConfusion h2

/-- Every node that `Remove` detaches lies on the path of the removed key, and
no node of its subtree hosts an entry with another key. -/
theorem Remove_detached (t : BTrie V) (hwf : WF [] t.root) (K : List Byte) (q : List Bool)
    (h1 : (t.root.sub q).isNil = false) (h2 : ((Remove t K).1.root.sub q).isNil = true) :
    q <+: bits K ∧ ∀ e ∈ (t.root.sub q).entries, e.key = K := by
  have hfst : (drillLoop none (steps K) t.root (some newStack)).1
      = (drillLoop none (steps K) t.root none).1 := drillLoop_fst _ _ _ _
  by_cases hm : isMatch (drillLoop none (steps K) t.root none).1 K = true
  · have hR1 : (Remove t K).1 = ⟨(removeLoop (steps K) t.root).1, t.size - 1⟩ := by
      simp [Remove, drillDown, hfst, hm]
    have hex : ∃ e0, (drillLoop none (steps K) t.root none).1.leaf = some e0 ∧ e0.key = K := by
      unfold isMatch at hm
      cases hl : (drillLoop none (steps K) t.root none).1.leaf with
      | none => simp [hl] at hm
      | some e0 =>
        simp only [hl, beq_iff_eq] at hm
        exact ⟨e0, rfl, hm⟩
    rw [hR1] at h2
    have := removeLoop_detached K (steps K) [] t.root hwf (by simp [bits]) hex q h1 h2
    simpa using this
  · have hR : Remove t K = (t, none) := by
      simp [Remove, drillDown, hfst, hm]
    rw [hR, h1] at h2
    exact Bool.noConfusion h2

/-- What `Put` with a non-nil value does to a trie that satisfies the invariant. -/
theorem Put_spec (t : BTrie V) (hwf : WF [] t.root) (hn : t.root.isNil = false)
    (K : List Byte) (v : V) :
    ∃ t2, Put t K (some v) = some (t2, Get t K) ∧ t2.root.isNil = false ∧ WF [] t2.root ∧
      (∀ e, e ∈ t2.root.entries ↔ (e ∈ t.root.entries ∧ e.key ≠ K) ∨ e = ⟨K, some v⟩) ∧
      t2.size = t.size + 1 := by
  obtain ⟨r, old, hres, hrn, hrwf, hrent, hrold⟩ :=
    putLoop_spec K (some v) rfl (steps K) [] t.root rfl (List.nil_prefix) hwf hn
  have hold : old = Get t K := by
    apply Option.ext
    intro w
    rw [Option.mem_def, Option.mem_def, hrold w, Get_eq_some_iff t hwf K w]
  refine ⟨⟨r, t.size + 1⟩, ?_, hrn, hrwf, hrent, rfl⟩
  simp [Put, hres, hold]

/-- Every trie built from `New` by `Put` and `Remove` has a non-nil root and
satisfies the invariant. -/
theorem Reachable_inv (t : BTrie V) (h : Reachable t) : t.root.isNil = false ∧ WF [] t.root := by
  induction h with
  | init => exact ⟨rfl, by simp [New, emptyNode, WF]⟩
  | put t t2 key value old _ hput ih =>
    cases value with
    | none =>
      simp only [Put, Option.isNone_none, if_true, Option.some.injEq] at hput
      have hsp := Remove_spec t ih.2 key
      rw [hput] at hsp
      exact ⟨by rw [hsp.2.2.1]; exact ih.1, hsp.2.1⟩
    | some v =>
      obtain ⟨t3, h3, hn3, hwf3, -, -⟩ := Put_spec t ih.2 ih.1 key v
      rw [h3] at hput
      simp only [Option.some.injEq, Prod.mk.injEq] at hput
      rw [← hput.1]
      exact ⟨hn3, hwf3⟩
  | remove t key _ ih =>
    have hsp := Remove_spec t ih.2 key
    exact ⟨by rw [hsp.2.2.1]; exact ih.1, hsp.2.1⟩

theorem walk_forward (n : node V) : n.walk Direction.Forward = n.entries := by
  induction n with
  | nil => rfl
  | mk n0 n1 l ih0 ih1 => simp [node.walk, node.entries, ih0, ih1]

theorem walk_eq (dir : Direction) (n : node V) :
    n.walk dir = n.leaf.toList ++ ((n.next dir.bit).walk dir ++ (n.next (!dir.bit)).walk dir) := by
  cases n with
  | nil => simp [node.walk, node.leaf, node.next]
  | mk n0 n1 l => cases dir <;> simp [node.walk, node.leaf, node.next, Direction.bit]

theorem stackWalk_push (dir : Direction) (s : stack V) (n : node V) :
    stackWalk dir (push s n) = n.walk dir ++ stackWalk dir s := by
  cases n with
  | nil => simp [push, node.walk]
  | mk n0 n1 l => simp [push, stackWalk]

theorem stackWeight_push (s : stack V) (n : node V) :
    stackWeight (push s n) ≤ stackWeight s + n.weight := by
  cases n with
  | nil => simp [push]
  | mk n0 n1 l => simp [push, stackWeight]; omega

theorem stackWeight_pop (top : node V) (s : stack V) (a : Bool) :
    stackWeight (push (push s (top.next (!a))) (top.next a)) < stackWeight (top :: s) := by
  cases top with
  | nil => simp [push, node.next, stackWeight, node.weight]
  | mk n0 n1 l =>
    have h1 := stackWeight_push (push s ((node.mk n0 n1 l).next (!a))) ((node.mk n0 n1 l).next a)
    have h2 := stackWeight_push s ((node.mk n0 n1 l).next (!a))
    cases a <;> simp only [node.next, Bool.not_false, Bool.not_true] at h1 h2 ⊢ <;>
      simp only [stackWeight, node.weight] <;> omega

/-- The loop of `HasNext` with enough fuel: it answers `false` on a stack that
stands for no entry, and otherwise stops at the node of the first entry, with
one less to go and a stack that stands for the remaining entries. -/
theorem hasNextLoop_spec (dir : Direction) (from_ : Option (List Byte)) (sub : Bool) :
    ∀ (fuel : Nat) (s : stack V) (cu : node V) (lim : Nat),
      stackWeight s < fuel → lim ≠ 0 →
      (stackWalk dir s = [] →
        ∃ cu2, hasNextLoop fuel ⟨cu, s, ⟨dir, from_, sub, lim⟩⟩
          = some (false, ⟨cu2, [], ⟨dir, from_, sub, lim⟩⟩)) ∧
      (∀ e es, stackWalk dir s = e :: es →
        ∃ top s2, hasNextLoop fuel ⟨cu, s, ⟨dir, from_, sub, lim⟩⟩
            = some (true, ⟨top, s2, ⟨dir, from_, sub, lim - 1⟩⟩) ∧
          top.leaf = some e ∧ stackWalk dir s2 = es ∧ stackWeight s2 < stackWeight s) := by
  intro fuel
  induction fuel with
  | zero => intro s cu lim h; omega
  | succ fuel ih =>
    intro s cu lim hf hlim
    cases s with
    | nil =>
      constructor
      · intro _
        exact ⟨cu, by simp [hasNextLoop]⟩
      · intro e es h
        simp [stackWalk] at h
    | cons top s0 =>
      have hw := stackWeight_pop top s0 dir.bit
      have hwalk : stackWalk dir (top :: s0)
          = top.leaf.toList ++ stackWalk dir
              (push (push s0 (top.next (!dir.bit))) (top.next dir.bit)) := by
        rw [stackWalk_push, stackWalk_push, stackWalk, walk_eq dir top]
        simp
      have hstep : hasNextLoop (fuel + 1) ⟨cu, top :: s0, ⟨dir, from_, sub, lim⟩⟩
          = if top.leaf.isSome then
              some (true, ⟨top, push (push s0 (top.next (!dir.bit))) (top.next dir.bit),
                ⟨dir, from_, sub, lim - 1⟩⟩)
            else hasNextLoop fuel
              ⟨top, push (push s0 (top.next (!dir.bit))) (top.next dir.bit),
                ⟨dir, from_, sub, lim⟩⟩ := by
        simp [hasNextLoop, hlim]
      rw [hstep, hwalk]
      cases hl : top.leaf with
      | some e0 =>
        simp only [Option.isSome_some, if_true, Option.toList_some, List.singleton_append]
        constructor
        · intro h; exact absurd h (List.cons_ne_nil _ _)
        · intro e es h
          simp only [List.cons.injEq] at h
          refine ⟨top, _, rfl, ?_, h.2, hw⟩
          rw [hl, h.1]
      | none =>
        simp only [Option.isSome_none, Bool.false_eq_true, if_false, Option.toList_none,
          List.nil_append]
        have hrec := ih (push (push s0 (top.next (!dir.bit))) (top.next dir.bit)) top lim
          (by omega) hlim
        constructor
        · exact hrec.1
        · intro e es h
          obtain ⟨top2, s2, h1, h2, h3, h4⟩ := hrec.2 e es h
          exact ⟨top2, s2, h1, h2, h3, by omega⟩

/-- `HasNext` always returns: the fuel of its loop is enough. -/
theorem HasNext_returns (c : Cursor V) : ∃ r, HasNext c = some r := by
  unfold HasNext
  split
  · exact ⟨_, rfl⟩
  · obtain ⟨cu, s, ⟨dir, src, sub, lim⟩⟩ := c
    by_cases hlim : lim = 0
    · exact ⟨(false, ⟨cu, s, ⟨dir, src, sub, lim⟩⟩), by simp [hasNextLoop, hlim]⟩
    · have h := hasNextLoop_spec dir src sub (stackWeight s + 1) s cu lim (by omega) hlim
      cases hw : stackWalk dir s with
      | nil =>
        obtain ⟨cu2, h2⟩ := h.1 hw
        exact ⟨_, h2⟩
      | cons e es =>
        obtain ⟨top, s2, h2, -⟩ := h.2 e es hw
        exact ⟨_, h2⟩

/-- The caller's loop on a cursor whose `curr` is nil collects the entries the
stack stands for, up to the limit. -/
theorem drainLoop_spec (dir : Direction) (src : Option (List Byte)) (sub : Bool) :
    ∀ (fuel : Nat) (s : stack V) (lim : Nat), stackWeight s < fuel →
      drainLoop fuel ⟨node.nil, s, ⟨dir, src, sub, lim⟩⟩ = some ((stackWalk dir s).take lim) := by
  intro fuel
  induction fuel with
  | zero => intro s lim h; omega
  | succ fuel ih =>
    intro s lim hf
    by_cases hlim : lim = 0
    · subst hlim
      simp [drainLoop, HasNext, hasNextLoop]
    · have h := hasNextLoop_spec dir src sub (stackWeight s + 1) s node.nil lim (by omega) hlim
      have hH : HasNext (⟨node.nil, s, ⟨dir, src, sub, lim⟩⟩ : Cursor V)
          = hasNextLoop (stackWeight s + 1) ⟨node.nil, s, ⟨dir, src, sub, lim⟩⟩ := by
        simp [HasNext]
      cases hw : stackWalk dir s with
      | nil =>
        obtain ⟨cu2, h2⟩ := h.1 hw
        simp [drainLoop, hH, h2]
      | cons e es =>
        obtain ⟨top, s2, h2, hl, hs2, hw2⟩ := h.2 e es hw
        have hN : Next (⟨top, s2, ⟨dir, src, sub, lim - 1⟩⟩ : Cursor V)
            = some (some e, ⟨node.nil, s2, ⟨dir, src, sub, lim - 1⟩⟩) := by
          cases top with
          | nil => simp [node.leaf] at hl
          | mk n0 n1 l =>
            simp only [node.leaf] at hl
            simp [Next, hl]
        have hrec := ih s2 (lim - 1) (by omega)
        simp only [drainLoop, hH, h2, hN, hrec, hs2, Option.map_some']
        obtain ⟨k, rfl⟩ : ∃ k, lim = k + 1 := ⟨lim - 1, by omega⟩
        simp

/-- The entries a cursor fresh from `Traverse` yields. -/
theorem drain_spec (s : stack V) (opts : TraversalOpts) :
    drain ⟨node.nil, s, opts⟩ = some ((stackWalk opts.Dir s).take opts.Limit) := by
  obtain ⟨dir, src, sub, lim⟩ := opts
  exact drainLoop_spec dir src sub _ s lim (by simp [node.weight]; omega)

theorem high_eq (x y j : Nat) (hx : x < 256) (hy : y < 256)
    (h : ∀ i, j < i → i < 8 → (x / 2 ^ i % 2 = 1 ↔ y / 2 ^ i % 2 = 1)) :
    ∀ n, n ≤ 8 → j < 8 - n → x / 2 ^ (8 - n) = y / 2 ^ (8 - n) := by
  intro n
  induction n with
  | zero =>
    intro _ _
    rw [Nat.div_eq_of_lt (by simpa using hx), Nat.div_eq_of_lt (by simpa using hy)]
  | succ n ih =>
    intro hn hj
    have h1 := ih (by omega) (by omega)
    have e : 8 - n = (8 - (n + 1)) + 1 := by omega
    rw [e, pow_succ, Nat.mul_comm] at h1
    exact half_ext x y _ h1 (h _ hj (by omega))

theorem byte_lt_of_bits (x y : Byte) (j : Nat) (hj : j < 8)
    (hhigh : ∀ i, j < i → i < 8 → bitOf x i = bitOf y i)
    (hx : bitOf x j = false) (hy : bitOf y j = true) : x < y := by
  have h1 : ∀ i, j < i → i < 8 → (x.val / 2 ^ i % 2 = 1 ↔ y.val / 2 ^ i % 2 = 1) := by
    intro i h1 h2
    have := hhigh i h1 h2
    rwa [bitOf_eq, bitOf_eq, decide_eq_decide] at this
  have h2 := high_eq x.val y.val j x.isLt y.isLt h1 (8 - (j + 1)) (by omega) (by omega)
  have e : 8 - (8 - (j + 1)) = j + 1 := by omega
  rw [e, pow_succ, ← Nat.div_div_eq_div_mul, ← Nat.div_div_eq_div_mul] at h2
  rw [bitOf_eq] at hx hy
  simp only [decide_eq_false_iff_not, decide_eq_true_eq] at hx hy
  have h3 : x.val / 2 ^ j < y.val / 2 ^ j := by omega
  exact Fin.lt_def.2 (Nat.lt_of_div_lt_div h3)

theorem keyLt_of_index : ∀ (m : Nat) (a b : List Byte) (x y : Byte),
    (∀ n, n < m → a[n]? = b[n]?) → a[m]? = some x → b[m]? = some y → x < y →
      keyLt a b = true := by
  intro m
  induction m with
  | zero =>
    intro a b x y _ ha hb hxy
    cases a with
    | nil => simp at ha
    | cons x0 a2 =>
      cases b with
      | nil => simp at hb
      | cons y0 b2 =>
        simp only [List.getElem?_cons_zero, Option.some.injEq] at ha hb
        subst ha hb
        simp [keyLt, hxy]
  | succ m ih =>
    intro a b x y hab ha hb hxy
    cases a with
    | nil => simp at ha
    | cons x0 a2 =>
      cases b with
      | nil => simp at hb
      | cons y0 b2 =>
        have h0 := hab 0 (by omega)
        simp only [List.getElem?_cons_zero, Option.some.injEq] at h0
        subst h0
        simp only [List.getElem?_cons_succ] at ha hb
        have hrec := ih a2 b2 x y (fun n hn => by simpa using hab (n + 1) (by omega)) ha hb hxy
        simp [keyLt, hrec]

theorem keyLt_of_shorter : ∀ (a b : List Byte), a.length < b.length →
    (∀ n, n < a.length → a[n]? = b[n]?) → keyLt a b = true := by
  intro a
  induction a with
  | nil =>
    intro b hl _
    cases b with
    | nil => simp at hl
    | cons y0 b2 => rfl
  | cons x0 a2 ih =>
    intro b hl hab
    cases b with
    | nil => simp at hl
    | cons y0 b2 =>
      have h0 := hab 0 (by simp)
      simp only [List.getElem?_cons_zero, Option.some.injEq] at h0
      subst h0
      have hrec := ih b2 (by simpa using hl)
        (fun n hn => by simpa using hab (n + 1) (by simpa using hn))
      simp [keyLt, hrec]

/-- Two keys whose bit strings agree below index `d` agree on every bit of a
byte that lies below `d`. -/
theorem bit_agree {a b : List Byte} {d : Nat}
    (hab : ∀ i, i < d → (bits a)[i]? = (bits b)[i]?) {n jj : Nat} {xa xb : Byte}
    (hjj : jj < 8) (hi : 8 * n + (7 - jj) < d) (ha : a[n]? = some xa) (hb : b[n]? = some xb) :
    bitOf xa jj = bitOf xb jj := by
  have h := hab _ hi
  rw [bits_getElem?, bits_getElem?] at h
  have e1 : (8 * n + (7 - jj)) / 8 = n := by omega
  have e2 : 7 - (8 * n + (7 - jj)) % 8 = jj := by omega
  rw [e1, e2, ha, hb] at h
  simpa using h

theorem pfx_getElem? {p l : List Bool} (h : p <+: l) {i : Nat} (hi : i < p.length) :
    l[i]? = p[i]? := by
  obtain ⟨t, rfl⟩ := h
  exact List.getElem?_append_left hi

theorem pfx_snoc_getElem? {p l : List Bool} {u : Bool} (h : p ++ [u] <+: l) :
    l[p.length]? = some u := by
  have := pfx_getElem? h (i := p.length) (by simp)
  rw [this, List.getElem?_append_right (Nat.le_refl _)]
  simp

theorem pfx_snoc_left {p l : List Bool} {u : Bool} (h : p ++ [u] <+: l) : p <+: l :=
  (List.prefix_append p [u]).trans h

/-- A key whose bit string continues a path with 0 is less than a key whose
bit string continues it with 1. -/
theorem keyLt_of_diverge {p : List Bool} {a b : List Byte}
    (ha : p ++ [false] <+: bits a) (hb : p ++ [true] <+: bits b) : keyLt a b = true := by
  have hab : ∀ i, i < p.length → (bits a)[i]? = (bits b)[i]? := by
    intro i hi
    rw [pfx_getElem? (pfx_snoc_left ha) hi, pfx_getElem? (pfx_snoc_left hb) hi]
  have ha2 := pfx_snoc_getElem? ha
  have hb2 := pfx_snoc_getElem? hb
  rw [bits_getElem?] at ha2 hb2
  obtain ⟨x, hx, hxb⟩ := Option.map_eq_some'.1 ha2
  obtain ⟨y, hy, hyb⟩ := Option.map_eq_some'.1 hb2
  apply keyLt_of_index (p.length / 8) a b x y ?_ hx hy
  · apply byte_lt_of_bits x y (7 - p.length % 8) (by omega) ?_ hxb hyb
    intro jj h1 h2
    exact bit_agree hab h2 (by omega) hx hy
  · intro n hn
    have hla : n < a.length := by
      have := (List.getElem?_eq_some_iff.1 hx).1
      omega
    have hlb : n < b.length := by
      have := (List.getElem?_eq_some_iff.1 hy).1
      omega
    rw [List.getElem?_eq_getElem hla, List.getElem?_eq_getElem hlb]
    congr 1
    apply byte_ext
    intro jj hjj
    exact bit_agree hab hjj (by omega) (List.getElem?_eq_getElem hla)
      (List.getElem?_eq_getElem hlb)

/-- A key whose bit string is a path is less than every key whose bit string
continues the path. -/
theorem keyLt_of_extend {p : List Bool} {u : Bool} {a b : List Byte}
    (ha : bits a = p) (hb : p ++ [u] <+: bits b) : keyLt a b = true := by
  have hab : ∀ i, i < p.length → (bits a)[i]? = (bits b)[i]? := by
    intro i hi
    rw [pfx_getElem? (pfx_snoc_left hb) hi, ha]
  have hlen : 8 * a.length = p.length := by rw [← ha, bits_length]
  have hlb : p.length + 1 ≤ 8 * b.length := by
    have := hb.length_le
    simpa [bits_length] using this
  apply keyLt_of_shorter a b (by omega)
  intro n hn
  have hnb : n < b.length := by omega
  rw [List.getElem?_eq_getElem hn, List.getElem?_eq_getElem hnb]
  congr 1
  apply byte_ext
  intro jj hjj
  exact bit_agree hab hjj (by omega) (List.getElem?_eq_getElem hn)
    (List.getElem?_eq_getElem hnb)

/-- Under the invariant the entries of a subtree, in forward order, have
strictly ascending keys. -/
theorem WF_sorted (p : List Bool) (n : node V) (h : WF p n) :
    n.entries.Pairwise (fun a b => keyLt a.key b.key = true) := by
  induction n generalizing p with
  | nil => simp [node.entries]
  | mk n0 n1 l ih0 ih1 =>
    simp only [node.entries]
    rw [List.pairwise_append, List.pairwise_append]
    refine ⟨?_, ⟨ih0 _ h.2.1, ih1 _ h.2.2, ?_⟩, ?_⟩
    · cases l <;> simp
    · intro a ha b hb
      exact keyLt_of_diverge (WF_entries_pfx _ _ _ h.2.1 ha) (WF_entries_pfx _ _ _ h.2.2 hb)
    · intro a ha b hb
      simp only [Option.mem_toList, Option.mem_def] at ha
      obtain ⟨-, hch, -⟩ := h.1 a ha
      rw [List.mem_append] at hb
      rcases hb with hb | hb
      · have hc : (node.mk n0 n1 l).hasChild = true := by
          cases n0 with
          | nil => simp [node.entries] at hb
          | mk _ _ _ => simp [node.hasChild, node.next]
        exact keyLt_of_extend (hch hc) (WF_entries_pfx _ _ _ h.2.1 hb)
      · have hc : (node.mk n0 n1 l).hasChild = true := by
          cases n1 with
          | nil => simp [node.entries] at hb
          | mk _ _ _ => simp [node.hasChild, node.next]
        exact keyLt_of_extend (hch hc) (WF_entries_pfx _ _ _ h.2.2 hb)

theorem keyLt_irrefl (a : List Byte) : keyLt a a = false := by
  induction a with
  | nil => rfl
  | cons x a ih => simp [keyLt, ih]

theorem keyLt_asymm : ∀ (a b : List Byte), keyLt a b = true → keyLt b a = false := by
  intro a
  induction a with
  | nil =>
    intro b _
    cases b <;> rfl
  | cons x a ih =>
    intro b h
    cases b with
    | nil => simp [keyLt] at h
    | cons y b =>
      simp only [keyLt, Bool.or_eq_true, decide_eq_true_eq, Bool.and_eq_true, beq_iff_eq] at h
      simp only [keyLt, Bool.or_eq_false_iff, decide_eq_false_iff_not, Bool.and_eq_false_imp,
        beq_iff_eq]
      rcases h with h | ⟨h1, h2⟩
      · exact ⟨fun h3 => absurd h (lt_asymm h3), fun h3 => absurd h3.symm (ne_of_lt h)⟩
      · subst h1
        exact ⟨lt_irrefl x, fun _ => ih b h2⟩

/-- Under the invariant an entry is in the trie exactly when its value is
non-nil and is what `Get` returns for its key. -/
theorem mem_entries_iff_Get (t : BTrie V) (hwf : WF [] t.root) (e : Entry V) :
    e ∈ t.root.entries ↔ (e.value.isSome = true ∧ Get t e.key = e.value) := by
  constructor
  · intro he
    have hv := WF_entries_value _ _ _ hwf he
    obtain ⟨w, hv2⟩ := Option.isSome_iff_exists.1 hv
    refine ⟨hv, ?_⟩
    rw [hv2, Get_eq_some_iff t hwf]
    exact ⟨e, he, rfl, hv2⟩
  · rintro ⟨hv, hge⟩
    obtain ⟨w, hv2⟩ := Option.isSome_iff_exists.1 hv
    rw [hv2, Get_eq_some_iff t hwf] at hge
    obtain ⟨e2, he2, hk, hw2⟩ := hge
    have : e2 = e := by
      obtain ⟨k, w3⟩ := e
      obtain ⟨k2, w2⟩ := e2
      simp only at hk hw2 hv2
      rw [hk, hw2, hv2]
    rw [← this]
    exact he2

/-- The walk of `drillDown` with a direction and a stack: what the start node
and the stack stand for at the end is a suffix of what they stood for at the
beginning. -/
theorem drillLoop_seek (dir : Direction) :
    ∀ (ps : List (Nat × Nat × Byte)) (cur : node V) (s : stack V),
      ∃ s2 pre, (drillLoop (some dir) ps cur (some s)).2 = some s2 ∧
        cur.walk dir ++ stackWalk dir s
          = pre ++ ((drillLoop (some dir) ps cur (some s)).1.walk dir ++ stackWalk dir s2) := by
  intro ps
  induction ps with
  | nil =>
    intro cur s
    exact ⟨s, [], rfl, by simp [drillLoop]⟩
  | cons st rest ih =>
    intro cur s
    obtain ⟨i, j, b⟩ := st
    simp only [drillLoop]
    split
    · exact ⟨s, [], rfl, by simp⟩
    · by_cases hb : bitOf b j = dir.bit
      · have hpush : drillPush (some s) (some dir) cur (bitOf b j)
            = some (push s (cur.next (!dir.bit))) := by
          cases dir <;> simp [drillPush, hb, Direction.bit]
        rw [hpush, hb]
        obtain ⟨s2, pre, h1, h2⟩ := ih (cur.next dir.bit) (push s (cur.next (!dir.bit)))
        refine ⟨s2, cur.leaf.toList ++ pre, h1, ?_⟩
        rw [walk_eq dir cur, List.append_assoc, List.append_assoc, List.append_assoc, ← h2,
          stackWalk_push]
      · have hb2 : bitOf b j = !dir.bit := by
          cases h : bitOf b j <;> cases h2 : dir.bit <;> simp_all
        have hpush : drillPush (some s) (some dir) cur (bitOf b j) = some s := by
          cases dir <;> simp [drillPush, hb2, Direction.bit]
        rw [hpush, hb2]
        obtain ⟨s2, pre, h1, h2⟩ := ih (cur.next (!dir.bit)) s
        refine ⟨s2, cur.leaf.toList ++ (cur.next dir.bit).walk dir ++ pre, h1, ?_⟩
        rw [walk_eq dir cur, List.append_assoc, List.append_assoc, List.append_assoc,
          List.append_assoc, ← h2]

/-- The cursor of an unlimited traversal seeded at a key, without subtree
restriction: it stands for a suffix of the walk of the whole trie, which
starts with the walk of the node at which `drillDown` stops. -/
theorem Traverse_seek (t : BTrie V) (dir : Direction) (K : List Byte) :
    ∃ s2 pre, Traverse t ⟨dir, some K, false, 0⟩
        = ⟨node.nil, push s2 (drillLoop none (steps K) t.root none).1,
            ⟨dir, some K, false, MaxUint64⟩⟩ ∧
      t.root.walk dir = pre ++ ((drillLoop none (steps K) t.root none).1.walk dir
        ++ stackWalk dir s2) := by
  obtain ⟨s2, pre, h1, h2⟩ := drillLoop_seek dir (steps K) t.root ([] : stack V)
  rw [drillLoop_fst] at h2
  refine ⟨s2, pre, ?_, by simpa [stackWalk] using h2⟩
  simp [Traverse, drillDown, newStack, h1, drillLoop_fst (some dir)]

theorem Traverse_full (t : BTrie V) (dir : Direction) :
    Traverse t ⟨dir, none, false, 0⟩
      = ⟨node.nil, push [] t.root, ⟨dir, none, false, MaxUint64⟩⟩ := by
  simp [Traverse, newStack]

/-- The entries an unlimited full traversal yields: the walk of the trie in
the direction of the traversal, cut at `MaxUint64` entries. -/
theorem drain_full (t : BTrie V) (dir : Direction) :
    drain (Traverse t ⟨dir, none, false, 0⟩) = some ((t.root.walk dir).take MaxUint64) := by
  rw [Traverse_full, drain_spec, stackWalk_push]
  simp [stackWalk]

theorem walk_length (dir : Direction) (n : node V) : (n.walk dir).length = n.entries.length := by
  induction n with
  | nil => rfl
  | mk n0 n1 l ih0 ih1 =>
    cases dir
    · simp only [node.walk, node.entries, List.length_append, ih0, ih1]
    · simp only [node.walk, node.entries, List.length_append, ih0, ih1]
      omega

/-- The node at which `drillDown` stops when `Get` finds a value. -/
theorem leaf_of_Get (t : BTrie V) (K : List Byte) (v : V) (h : Get t K = some v) :
    (drillLoop none (steps K) t.root none).1.leaf = some ⟨K, some v⟩ := by
  unfold Get drillDown isMatch at h
  simp only at h
  cases hl : (drillLoop none (steps K) t.root none).1.leaf with
  | none => simp [hl] at h
  | some e =>
    simp only [hl] at h
    by_cases hk : e.key = K
    · simp only [hk, beq_self_eq_true, if_true] at h
      obtain ⟨k, w⟩ := e
      simp only at hk h
      rw [hk, h]
    · have : (e.key == K) = false := by simpa using hk
      simp [this] at h

theorem sub_append (n : node V) (q r : List Bool) : n.sub (q ++ r) = (n.sub q).sub r := by
  induction q generalizing n with
  | nil => rfl
  | cons b q ih => exact ih (n.next b)

theorem isNil_of_sub {n : node V} {q : List Bool} (h : (n.sub q).isNil = false) :
    n.isNil = false := by
  cases n with
  | nil => rw [sub_nil] at h; exact h
  | mk _ _ _ => rfl

theorem WF_sub (p : List Bool) (n : node V) (h : WF p n) (q : List Bool) :
    WF (p ++ q) (n.sub q) := by
  induction q generalizing p n with
  | nil => simpa [node.sub] using h
  | cons b q ih =>
    have := ih (p ++ [b]) (n.next b) (WF_next p n b h)
    simpa [node.sub] using this

/-- The entries of a subtree are the occupants of the nodes reached from it. -/
theorem mem_entries_iff_sub (n : node V) (e : Entry V) :
    e ∈ n.entries ↔ ∃ q, (n.sub q).leaf = some e := by
  induction n with
  | nil =>
    simp only [node.entries, List.not_mem_nil, false_iff, not_exists]
    intro q
    rw [sub_nil]
    simp [node.leaf]
  | mk n0 n1 l ih0 ih1 =>
    simp only [node.entries, List.mem_append, Option.mem_toList, Option.mem_def, ih0, ih1]
    constructor
    · rintro (h | ⟨q, h⟩ | ⟨q, h⟩)
      · exact ⟨[], h⟩
      · exact ⟨false :: q, h⟩
      · exact ⟨true :: q, h⟩
    · rintro ⟨q, h⟩
      cases q with
      | nil => exact Or.inl h
      | cons b q =>
        cases b
        · exact Or.inr (Or.inl ⟨q, h⟩)
        · exact Or.inr (Or.inr ⟨q, h⟩)

/-- Under the invariant two nodes that host entries with the same key are the
same node. -/
theorem WF_host_unique (n : node V) (hwf : WF [] n) (q1 q2 : List Bool) (e1 e2 : Entry V)
    (h1 : (n.sub q1).leaf = some e1) (h2 : (n.sub q2).leaf = some e2)
    (hk : e1.key = e2.key) : q1 = q2 := by
  have key : ∀ (qa qb : List Bool) (ea eb : Entry V), (n.sub qa).leaf = some ea →
      (n.sub qb).leaf = some eb → ea.key = eb.key → qa.length ≤ qb.length → qa = qb := by
    intro qa qb ea eb ha hb hkk hlen
    have wa := WF_leaf _ _ _ (WF_sub [] n hwf qa) ha
    have wb := WF_leaf _ _ _ (WF_sub [] n hwf qb) hb
    simp only [List.nil_append] at wa wb
    rw [hkk] at wa
    have hpre : qa <+: qb := List.prefix_of_prefix_length_le wa.1 wb.1 hlen
    obtain ⟨r, hr⟩ := hpre
    cases r with
    | nil => simpa using hr
    | cons b r =>
      exfalso
      have hnn : ((n.sub qa).next b).isNil = false := by
        have hb2 : (n.sub qb).isNil = false := by
          cases hc : n.sub qb with
          | nil => rw [hc] at hb; simp [node.leaf] at hb
          | mk _ _ _ => rfl
        rw [← hr, sub_append] at hb2
        simp only [node.sub] at hb2
        exact isNil_of_sub hb2
      have hbits := wa.2.1 (hasChild_of_next hnn)
      have hlb := wb.1.length_le
      rw [hbits, ← hr] at hlb
      simp at hlb
  rcases Nat.le_total q1.length q2.length with h | h
  · exact key q1 q2 e1 e2 h1 h2 hk h
  · exact (key q2 q1 e2 e1 h2 h1 hk.symm h).symm

theorem Live_iff (n : node V) (b : Bool) (hn : n.isNil = false) :
    Live n ↔ n.isEmpty = false ∧ Live (n.next b) ∧ Live (n.next (!b)) := by
  cases n with
  | nil => simp at hn
  | mk n0 n1 l =>
    cases b
    · simp [Live, node.next]
    · simp only [Live, node.next, Bool.not_true]
      constructor
      · rintro ⟨h1, h2, h3⟩; exact ⟨h1, h3, h2⟩
      · rintro ⟨h1, h2, h3⟩; exact ⟨h1, h3, h2⟩

theorem LiveBelow_iff (n : node V) (b : Bool) :
    LiveBelow n ↔ Live (n.next b) ∧ Live (n.next (!b)) := by
  cases b
  · simp [LiveBelow]
  · simp only [LiveBelow, Bool.not_true]
    exact And.comm

theorem Live_of_isNil (n : node V) (h : n.isNil = true) : Live n := by
  cases n with
  | nil => trivial
  | mk _ _ _ => simp at h

theorem LiveBelow_of_Live (n : node V) (h : Live n) : LiveBelow n := by
  cases n with
  | nil => exact ⟨trivial, trivial⟩
  | mk n0 n1 l => exact ⟨h.2.1, h.2.2⟩

theorem isEmpty_of_child {n : node V} {b : Bool} (h : (n.next b).isNil = false) :
    n.isEmpty = false := by
  cases n with
  | nil => simp [node.next] at h
  | mk n0 n1 l => cases b <;> simp_all [node.isEmpty, node.next]

theorem isEmpty_of_leaf {n : node V} {e : Entry V} (h : n.leaf = some e) :
    n.isEmpty = false := by
  cases n with
  | nil => simp [node.leaf] at h
  | mk n0 n1 l => simp_all [node.isEmpty, node.leaf]

theorem Live_leafNode (e : Entry V) : Live (leafNode (some e)) := by
  simp [leafNode, Live, node.isEmpty, node.leaf]

/-- A node whose child on `bit` is replaced by a live non-nil subtree is live
when its other child is. -/
theorem Live_setNext (n r : node V) (bit : Bool) (hn : n.isNil = false)
    (hr : r.isNil = false) (hlr : Live r) (ho : Live (n.next (!bit))) :
    Live (n.setNext bit r) := by
  rw [Live_iff _ bit (by simp [hn]), next_setNext_same _ _ _ hn, next_setNext_other]
  refine ⟨?_, hlr, ho⟩
  apply isEmpty_of_child (b := bit)
  rw [next_setNext_same _ _ _ hn]
  exact hr

theorem LiveBelow_leafNode (l : Option (Entry V)) : LiveBelow (leafNode l) :=
  ⟨trivial, trivial⟩

theorem LiveBelow_emptyNode : LiveBelow (emptyNode : node V) := ⟨trivial, trivial⟩

theorem putFinish_Live (K : List Byte) (v : Option V) (cur r : node V) (old : Option V)
    (h : putFinish K v cur = some (r, old)) (hl : LiveBelow cur) :
    r.isNil = false ∧ Live r := by
  cases cur with
  | nil => simp [putFinish] at h
  | mk n0 n1 leaf =>
    cases leaf with
    | none =>
      simp only [putFinish, Option.some.injEq, Prod.mk.injEq] at h
      rw [← h.1]
      exact ⟨rfl, by simp [node.isEmpty, node.leaf], hl.1, hl.2⟩
    | some e =>
      simp only [putFinish] at h
      split at h
      · simp only [Option.some.injEq, Prod.mk.injEq] at h
        rw [← h.1]
        exact ⟨rfl, by simp [node.isEmpty, node.leaf], hl.1, hl.2⟩
      · split at h
        · exact Option.noConfusion h
        · rename_i cb _
          simp only [Option.some.injEq, Prod.mk.injEq] at h
          rw [← h.1]
          refine ⟨by simp, ?_⟩
          rw [Live_iff _ (bitOf cb 7) (by simp)]
          refine ⟨?_, ?_, ?_⟩
          · apply isEmpty_of_leaf (e := ⟨K, v⟩)
            rw [leaf_setLeaf _ _ (by simp)]
          · rw [next_setLeaf, next_setNext_same _ _ _ (by simp)]
            exact Live_leafNode e
          · rw [next_setLeaf, next_setNext_other]
            exact ((LiveBelow_iff _ (bitOf cb 7)).1 hl).2

theorem putFinish_emptyNode (K : List Byte) (v : Option V) :
    putFinish K v (emptyNode : node V) = some (leafNode (some ⟨K, v⟩), none) := rfl

/-- The loops of `Put` leave no dead node: when they return, the rebuilt
subtree is non-nil and every node of it hosts an entry or has a child. -/
theorem putLoop_Live (K : List Byte) (v : Option V) :
    ∀ (ps : List (Nat × Nat × Byte)) (cur r : node V) (old : Option V),
      putLoop K v ps cur = some (r, old) → LiveBelow cur → r.isNil = false ∧ Live r := by
  intro ps
  induction ps with
  | nil =>
    intro cur r old h hl
    simp only [putLoop] at h
    exact putFinish_Live K v cur r old h hl
  | cons s rest ih =>
    intro cur r old h hl
    obtain ⟨i, j, b⟩ := s
    cases cur with
    | nil => simp [putLoop] at h
    | mk n0 n1 leaf =>
      have hlb := (LiveBelow_iff (node.mk n0 n1 leaf) (bitOf b j)).1 hl
      have lift : ∀ (cur2 c : node V) (res : Option (node V × Option V)),
          cur2.isNil = false → Live (cur2.next (!bitOf b j)) →
          (∀ r2 o2, res = some (r2, o2) → r2.isNil = false ∧ Live r2) →
          res.map (fun x => (cur2.setNext (bitOf b j) x.1, x.2)) = some (r, old) →
          r.isNil = false ∧ Live r := by
        intro cur2 c res hn ho hres hmap
        cases res with
        | none => simp at hmap
        | some x =>
          obtain ⟨r2, o2⟩ := x
          simp only [Option.map_some', Option.some.injEq, Prod.mk.injEq] at hmap
          obtain ⟨h1, h2⟩ := hres r2 o2 rfl
          rw [← hmap.1]
          exact ⟨by simp [hn], Live_setNext _ _ _ hn h1 h2 ho⟩
      have hfin : ∀ r2 o2, putFinish K v (emptyNode : node V) = some (r2, o2) →
          r2.isNil = false ∧ Live r2 := by
        intro r2 o2 h2
        rw [putFinish_emptyNode] at h2
        simp only [Option.some.injEq, Prod.mk.injEq] at h2
        rw [← h2.1]
        exact ⟨rfl, Live_leafNode _⟩
      simp only [putLoop] at h
      by_cases h1 : ((node.mk n0 n1 leaf).next (bitOf b j)).isNil = true
      · by_cases h2 : ((node.mk n0 n1 leaf).next (!bitOf b j)).isNil = true
        · rw [if_neg (not_not.2 h1), if_neg (not_not.2 h2)] at h
          cases leaf with
          | none => exact putFinish_Live K v _ r old h hl
          | some e =>
            simp only at h
            split at h
            · exact lift _ emptyNode _ (by simp) hlb.2 hfin h
            · split at h
              · exact Option.noConfusion h
              · rename_i cb _
                split at h
                · rename_i hcb
                  have hnb : bitOf cb j = !bitOf b j := by
                    cases h5 : bitOf cb j <;> cases h6 : bitOf b j <;> simp_all
                  rw [hnb] at h
                  refine lift _ emptyNode _ (by simp) ?_ hfin h
                  rw [next_setLeaf, next_setNext_same _ _ _ (by simp)]
                  exact Live_leafNode e
                · refine lift _ (leafNode (some e)) _ (by simp) ?_
                    (fun r2 o2 h3 => ih _ r2 o2 h3 (LiveBelow_leafNode _)) h
                  rw [next_setLeaf]
                  exact hlb.2
        · rw [if_neg (not_not.2 h1), if_pos h2] at h
          exact lift _ emptyNode _ (by simp) hlb.2
            (fun r2 o2 h3 => ih _ r2 o2 h3 LiveBelow_emptyNode) h
      · rw [if_pos h1] at h
        exact lift _ ((node.mk n0 n1 leaf).next (bitOf b j)) _ (by simp) hlb.2
          (fun r2 o2 h3 => ih _ r2 o2 h3 (LiveBelow_of_Live _ hlb.1)) h

/-- The rebuild of `Remove` leaves no dead node below the node it returns, and
when the pruning has stopped below it the node is not empty. -/
theorem removeLoop_Live :
    ∀ (ps : List (Nat × Nat × Byte)) (cur : node V), LiveBelow cur →
      LiveBelow (removeLoop ps cur).1 ∧
        ((removeLoop ps cur).2 = false → (removeLoop ps cur).1.isEmpty = false) := by
  have hstop : ∀ cur : node V, LiveBelow cur → LiveBelow (cur.setLeaf none) := by
    intro cur hl
    simpa [LiveBelow] using hl
  intro ps
  induction ps with
  | nil =>
    intro cur hl
    simp only [removeLoop]
    exact ⟨hstop cur hl, fun h => Bool.noConfusion h⟩
  | cons s rest ih =>
    intro cur hl
    obtain ⟨i, j, b⟩ := s
    simp only [removeLoop]
    by_cases hc : (cur.next (bitOf b j)).isNil = true
    · rw [if_pos hc]
      exact ⟨hstop cur hl, fun h => Bool.noConfusion h⟩
    · rw [if_neg hc]
      simp only [Bool.not_eq_true] at hc
      have hcn : cur.isNil = false := by
        cases cur with
        | nil => simp [node.next] at hc
        | mk _ _ _ => rfl
      have hlb := (LiveBelow_iff cur (bitOf b j)).1 hl
      have hrec := ih (cur.next (bitOf b j)) (LiveBelow_of_Live _ hlb.1)
      have hrn : (removeLoop rest (cur.next (bitOf b j))).1.isNil = false := by
        rw [removeLoop_isNil]; exact hc
      split
      · refine ⟨?_, fun h => Bool.noConfusion h⟩
        rw [LiveBelow_iff _ (bitOf b j), next_setNext_same _ _ _ hcn, next_setNext_other]
        exact ⟨trivial, hlb.2⟩
      · rename_i hpr
        have hne : (removeLoop rest (cur.next (bitOf b j))).1.isEmpty = false := by
          cases hf : (removeLoop rest (cur.next (bitOf b j))).2 with
          | false => exact hrec.2 hf
          | true =>
            cases he : (removeLoop rest (cur.next (bitOf b j))).1.isEmpty with
            | false => rfl
            | true => simp [hf, he] at hpr
        have hlive : Live (removeLoop rest (cur.next (bitOf b j))).1 := by
          rw [Live_iff _ false hrn]
          exact ⟨hne, hrec.1.1, hrec.1.2⟩
        refine ⟨?_, fun _ => ?_⟩
        · rw [LiveBelow_iff _ (bitOf b j), next_setNext_same _ _ _ hcn, next_setNext_other]
          exact ⟨hlive, hlb.2⟩
        · apply isEmpty_of_child (b := bitOf b j)
          rw [next_setNext_same _ _ _ hcn]
          exact hrn

/-- Every trie built from `New` by `Put` and `Remove` has no dead node below
its root. -/
theorem Reachable_Live (t : BTrie V) (h : Reachable t) : LiveBelow t.root := by
  have hrem : ∀ (t : BTrie V) (K : List Byte), LiveBelow t.root →
      LiveBelow (Remove t K).1.root := by
    intro t K hl
    unfold Remove
    simp only
    split
    · exact (removeLoop_Live (steps K) t.root hl).1
    · exact hl
  induction h with
  | init => exact ⟨trivial, trivial⟩
  | put t t2 key value old _ hput ih =>
    cases value with
    | none =>
      simp only [Put, Option.isNone_none, if_true, Option.some.injEq] at hput
      have := hrem t key ih
      rw [hput] at this
      exact this
    | some v =>
      simp only [Put, Option.isNone_some, Bool.false_eq_true, if_false] at hput
      cases hp : putLoop key (some v) (steps key) t.root with
      | none => rw [hp] at hput; simp at hput
      | some x =>
        obtain ⟨r, o⟩ := x
        rw [hp] at hput
        simp only [Option.map_some', Option.some.injEq, Prod.mk.injEq] at hput
        rw [← hput.1]
        exact LiveBelow_of_Live _ (putLoop_Live key (some v) _ _ r o hp ih).2
  | remove t key _ ih => exact hrem t key ih

theorem hasChild_of_not_isEmpty {n : node V} (h : n.isEmpty = false) (hl : n.leaf = none) :
    n.hasChild = true := by
  cases n with
  | nil => simp [node.isEmpty, node.leaf, node.next] at h
  | mk n0 n1 l =>
    simp only [node.leaf] at hl
    subst hl
    simp only [node.isEmpty, node.leaf, node.next, Option.isNone_none, Bool.true_and,
      Bool.and_eq_false_iff] at h
    simp only [node.hasChild, node.next, Bool.or_eq_true, Bool.not_eq_true']
    exact h

theorem Live_sub (n : node V) (h : Live n) (q : List Bool) (hq : (n.sub q).isNil = false) :
    (n.sub q).isEmpty = false := by
  induction q generalizing n with
  | nil =>
    cases n with
    | nil => simp [node.sub] at hq
    | mk n0 n1 l => exact h.1
  | cons b q ih =>
    have hb : Live (n.next b) := by
      cases b
      · exact (LiveBelow_of_Live n h).1
      · exact (LiveBelow_of_Live n h).2
    exact ih (n.next b) hb hq

theorem NoDeadNodes_of (t : BTrie V) (hn : t.root.isNil = false) (hl : LiveBelow t.root) :
    NoDeadNodes t := by
  refine ⟨hn, ?_⟩
  intro q hq hnn hleaf
  cases q with
  | nil => exact absurd rfl hq
  | cons b q =>
    have hb : Live (t.root.next b) := by
      cases b
      · exact hl.1
      · exact hl.2
    exact hasChild_of_not_isEmpty (Live_sub _ hb q hnn) hleaf

/-- Every reachable trie accepts every `Put` without panic. -/
theorem Put_total (t : BTrie V) (hr : Reachable t) (K : List Byte) (v : Option V) :
    ∃ t2 old, Put t K v = some (t2, old) := by
  cases v with
  | none => exact ⟨(Remove t K).1, (Remove t K).2, rfl⟩
  | some w =>
    obtain ⟨hn, hwf⟩ := Reachable_inv t hr
    obtain ⟨t2, h2, -⟩ := Put_spec t hwf hn K w
    exact ⟨t2, _, h2⟩

/-- The cursor `Traverse` returns depends on the limit only through the
remaining count, which is `MaxUint64` for the limit 0. -/
theorem Traverse_limit (t : BTrie V) (dir : Direction) (src : Option (List Byte)) (sub : Bool)
    (L : Nat) :
    Traverse t ⟨dir, src, sub, L⟩
      = ⟨node.nil, (Traverse t ⟨dir, src, sub, 0⟩).stack,
          ⟨dir, src, sub, if L = 0 then MaxUint64 else L⟩⟩ := by
  by_cases hL : L = 0
  · subst hL
    cases src <;> simp [Traverse]
  · cases src <;> simp [Traverse, hL]

/-- The entries a traversal yields: the walk its initial stack stands for,
cut at the limit, or at `MaxUint64` entries for the limit 0. -/
theorem drain_Traverse (t : BTrie V) (dir : Direction) (src : Option (List Byte)) (sub : Bool)
    (L : Nat) :
    drain (Traverse t ⟨dir, src, sub, L⟩)
      = some ((stackWalk dir (Traverse t ⟨dir, src, sub, 0⟩).stack).take
          (if L = 0 then MaxUint64 else L)) := by
  rw [Traverse_limit, drain_spec]

/-- A traversal with a limit between 1 and `MaxUint64` yields the first
entries of the same traversal without limit. -/
theorem drain_limited (t : BTrie V) (dir : Direction) (src : Option (List Byte)) (sub : Bool)
    (L : Nat) (h1 : L ≠ 0) (h2 : L ≤ MaxUint64) :
    drain (Traverse t ⟨dir, src, sub, L⟩)
      = (drain (Traverse t ⟨dir, src, sub, 0⟩)).map (List.take L) := by
  rw [drain_Traverse, drain_Traverse]
  simp only [h1, if_false, if_true, Option.map_some', List.take_take, Option.some.injEq]
  rw [Nat.min_eq_left h2]

theorem Reachable_putAll (l : List (List Byte × V)) :
    ∀ t : BTrie V, Reachable t → Reachable ((putAll t l).getD t) := by
  induction l with
  | nil => intro t h; exact h
  | cons kv rest ih =>
    intro t h
    obtain ⟨k, v⟩ := kv
    obtain ⟨hn, hwf⟩ := Reachable_inv t h
    obtain ⟨t2, h2, -⟩ := Put_spec t hwf hn k v
    have hr2 : Reachable t2 := Reachable.put t t2 k (some v) _ h h2
    have h3 := ih t2 hr2
    simp only [putAll, h2]
    cases hp : putAll t2 rest with
    | none => simpa using h
    | some t3 =>
      rw [hp] at h3
      simpa using h3

theorem Reachable_exampleTrie : Reachable exampleTrie := Reachable_putAll _ New Reachable.init

theorem Reachable_edgeTrie : Reachable edgeTrie := Reachable_putAll _ New Reachable.init

/-- C1: on every trie reachable from `New`, for every key (the empty key
included) and every non-nil value, `Put` returns without panic and `Get` of
the key on the resulting trie returns the value. -/
theorem C1_put_then_get (t : BTrie V) (hr : Reachable t) (K : List Byte) (v : V) :
    ∃ t2 old, Put t K (some v) = some (t2, old) ∧ Get t2 K = some v := by
  obtain ⟨hn, hwf⟩ := Reachable_inv t hr
  obtain ⟨t2, h2, -, hwf2, hent, -⟩ := Put_spec t hwf hn K v
  refine ⟨t2, Get t K, h2, ?_⟩
  rw [Get_eq_some_iff t2 hwf2]
  exact ⟨⟨K, some v⟩, (hent _).2 (Or.inr rfl), rfl, rfl⟩

theorem C1_put_then_get_witness :
    Reachable edgeTrie ∧
      ∃ t2 old, Put edgeTrie [] (some 7) = some (t2, old) ∧ Get t2 [] = some 7 :=
  ⟨Reachable_edgeTrie, C1_put_then_get edgeTrie Reachable_edgeTrie [] 7⟩

/-- C2: on every reachable trie, `Put` of a key with a non-nil value returns
what `Get` of the key returned before the call; so a second `Put` of the same
key returns the value of the first. -/
theorem C2_put_returns_old (t : BTrie V) (hr : Reachable t) (K : List Byte) (v v2 : V) :
    ∃ t2, Put t K (some v) = some (t2, Get t K) ∧
      ∃ t3, Put t2 K (some v2) = some (t3, some v) := by
  obtain ⟨hn, hwf⟩ := Reachable_inv t hr
  obtain ⟨t2, h2, hn2, hwf2, hent, -⟩ := Put_spec t hwf hn K v
  obtain ⟨t3, h3, -⟩ := Put_spec t2 hwf2 hn2 K v2
  refine ⟨t2, h2, t3, ?_⟩
  rw [h3]
  have : Get t2 K = some v := by
    rw [Get_eq_some_iff t2 hwf2]
    exact ⟨⟨K, some v⟩, (hent _).2 (Or.inr rfl), rfl, rfl⟩
  rw [this]

theorem C2_put_returns_old_witness :
    Reachable exampleTrie ∧
      ∃ t2, Put exampleTrie [119, 105, 110] (some 8) = some (t2, Get exampleTrie [119, 105, 110]) ∧
        ∃ t3, Put t2 [119, 105, 110] (some 9) = some (t3, some 8) :=
  ⟨Reachable_exampleTrie, C2_put_returns_old exampleTrie Reachable_exampleTrie [119, 105, 110] 8 9⟩

/-- C3: on every reachable trie, `Put` of a key with a non-nil value leaves
the result of `Get` unchanged for every other key, also when one of the two
keys is a strict prefix of the other. -/
theorem C3_put_frame (t : BTrie V) (hr : Reachable t) (K K2 : List Byte) (v : V)
    (hne : K ≠ K2) :
    ∃ t2 old, Put t K (some v) = some (t2, old) ∧ Get t2 K2 = Get t K2 := by
  obtain ⟨hn, hwf⟩ := Reachable_inv t hr
  obtain ⟨t2, h2, -, hwf2, hent, -⟩ := Put_spec t hwf hn K v
  refine ⟨t2, Get t K, h2, ?_⟩
  apply Option.ext
  intro w
  rw [Option.mem_def, Option.mem_def, Get_eq_some_iff t2 hwf2, Get_eq_some_iff t hwf]
  constructor
  · rintro ⟨e, he, hk, hw⟩
    rcases (hent e).1 he with ⟨h, -⟩ | h
    · exact ⟨e, h, hk, hw⟩
    · rw [h] at hk
      exact absurd hk hne
  · rintro ⟨e, he, hk, hw⟩
    exact ⟨e, (hent e).2 (Or.inl ⟨he, by rw [hk]; exact fun h => hne h.symm⟩), hk, hw⟩

theorem C3_put_frame_witness :
    Reachable edgeTrie ∧ ([0] : List Byte) ≠ [0, 0] ∧
      ∃ t2 old, Put edgeTrie [0] (some 7) = some (t2, old) ∧ Get t2 [0, 0] = Get edgeTrie [0, 0] :=
  ⟨Reachable_edgeTrie, by decide,
    C3_put_frame edgeTrie Reachable_edgeTrie [0] [0, 0] 7 (by decide)⟩

/-- C4: on every reachable trie, `Remove` of a key stored with the value `v`
returns `v`; afterwards `Get` of the key returns nil, and a second `Remove`
of the key returns nil. -/
theorem C4_remove_stored (t : BTrie V) (hr : Reachable t) (K : List Byte) (v : V)
    (hg : Get t K = some v) :
    (Remove t K).2 = some v ∧ Get (Remove t K).1 K = none ∧
      (Remove (Remove t K).1 K).2 = none := by
  obtain ⟨-, hwf⟩ := Reachable_inv t hr
  obtain ⟨h1, hwf2, -, hent, -⟩ := Remove_spec t hwf K
  have hnone : Get (Remove t K).1 K = none := by
    rw [Get_eq_none_iff _ hwf2]
    intro e he
    rw [hent, List.mem_filter] at he
    simpa using he.2
  refine ⟨by rw [h1, hg], hnone, ?_⟩
  rw [(Remove_spec _ hwf2 K).1, hnone]

theorem C4_remove_stored_witness :
    Reachable exampleTrie ∧ Get exampleTrie [102, 97, 108, 108] = some 3 ∧
      ((Remove exampleTrie [102, 97, 108, 108]).2 = some 3 ∧
        Get (Remove exampleTrie [102, 97, 108, 108]).1 [102, 97, 108, 108] = none ∧
        (Remove (Remove exampleTrie [102, 97, 108, 108]).1 [102, 97, 108, 108]).2 = none) :=
  ⟨Reachable_exampleTrie, by rfl,
    C4_remove_stored exampleTrie Reachable_exampleTrie [102, 97, 108, 108] 3 (by rfl)⟩

/-- C5: on every reachable trie, `Remove` of a key leaves the result of `Get`
unchanged for every other key, also when one of the two keys is a strict
prefix of the other.  The pruning detaches only nodes that host no entry and
have no children once the entry of the key is cleared: the entries of the
trie after the call are those before it without the entry of the removed key,
in the same order, and every node that was in the trie before the call and is
not in it afterwards lies on the path of the removed key and has no entry with
another key in its subtree (so its only child, if any, is detached too). -/
theorem C5_remove_frame (t : BTrie V) (hr : Reachable t) (K K2 : List Byte) (hne : K ≠ K2) :
    Get (Remove t K).1 K2 = Get t K2 ∧
      (Remove t K).1.root.entries = t.root.entries.filter (fun e => decide (e.key ≠ K)) ∧
      ∀ q, (t.root.sub q).isNil = false → ((Remove t K).1.root.sub q).isNil = true →
        q <+: bits K ∧ ∀ e ∈ (t.root.sub q).entries, e.key = K := by
  obtain ⟨-, hwf⟩ := Reachable_inv t hr
  obtain ⟨-, hwf2, -, hent, -⟩ := Remove_spec t hwf K
  refine ⟨?_, hent, fun q h1 h2 => Remove_detached t hwf K q h1 h2⟩
  apply Option.ext
  intro w
  rw [Option.mem_def, Option.mem_def, Get_eq_some_iff _ hwf2, Get_eq_some_iff t hwf, hent]
  constructor
  · rintro ⟨e, he, hk, hw⟩
    exact ⟨e, (List.mem_filter.1 he).1, hk, hw⟩
  · rintro ⟨e, he, hk, hw⟩
    refine ⟨e, List.mem_filter.2 ⟨he, ?_⟩, hk, hw⟩
    simp only [decide_eq_true_eq, hk]
    exact fun h => hne h.symm

theorem C5_remove_frame_witness :
    Reachable edgeTrie ∧ ([0] : List Byte) ≠ [0, 0] ∧
      (Get (Remove edgeTrie [0]).1 [0, 0] = Get edgeTrie [0, 0] ∧
        (Remove edgeTrie [0]).1.root.entries =
          edgeTrie.root.entries.filter (fun e => decide (e.key ≠ [0])) ∧
        ∀ q, (edgeTrie.root.sub q).isNil = false →
          ((Remove edgeTrie [0]).1.root.sub q).isNil = true →
            q <+: bits [0] ∧ ∀ e ∈ (edgeTrie.root.sub q).entries, e.key = [0]) :=
  ⟨Reachable_edgeTrie, by decide, C5_remove_frame edgeTrie Reachable_edgeTrie [0] [0, 0] (by decide)⟩

/-- C7: on every reachable trie, `Remove` of a key that is not stored returns
nil and returns the trie unchanged: the same nodes and the same size, hence
the same result of `Get` for every key. -/
theorem C7_remove_missing (t : BTrie V) (hr : Reachable t) (K : List Byte)
    (hg : Get t K = none) : Remove t K = (t, none) := by
  obtain ⟨-, hwf⟩ := Reachable_inv t hr
  obtain ⟨h1, -, -, -, h5⟩ := Remove_spec t hwf K
  apply Prod.ext
  · exact h5 hg
  · rw [h1, hg]

theorem C7_remove_missing_witness :
    Reachable exampleTrie ∧ Get exampleTrie [119] = none ∧
      Remove exampleTrie [119] = (exampleTrie, none) :=
  ⟨Reachable_exampleTrie, by rfl,
    C7_remove_missing exampleTrie Reachable_exampleTrie [119] (by rfl)⟩

/-- C8: on every reachable trie (holding at most `MaxUint64` entries, as
every trie in a 64-bit address space does), the full forward traversal
terminates and yields a sequence whose keys are strictly ascending in
byte-lexicographic order, hence pairwise distinct, and whose entries are
exactly the pairs of a stored key and the value `Get` returns for it. -/
theorem C8_forward_sorted_complete (t : BTrie V) (hr : Reachable t)
    (hsz : t.root.entries.length ≤ MaxUint64) :
    ∃ es, drain (TraverseFully t) = some es ∧
      es.Pairwise (fun a b => keyLt a.key b.key = true) ∧
      (es.map Entry.key).Nodup ∧
      ∀ e, e ∈ es ↔ (e.value.isSome = true ∧ Get t e.key = e.value) := by
  obtain ⟨-, hwf⟩ := Reachable_inv t hr
  have hnd : (t.root.entries.map Entry.key).Nodup := by
    rw [List.Nodup, List.pairwise_map]
    exact (WF_sorted [] t.root hwf).imp fun {a b} h hab => by
      rw [hab, keyLt_irrefl] at h
      exact Bool.noConfusion h
  refine ⟨t.root.entries, ?_, WF_sorted [] t.root hwf, hnd, ?_⟩
  · have := drain_full t Direction.Forward
    rw [walk_forward, List.take_of_length_le hsz] at this
    exact this
  · exact mem_entries_iff_Get t hwf

theorem C8_forward_sorted_complete_witness :
    Reachable exampleTrie ∧ exampleTrie.root.entries.length ≤ MaxUint64 ∧
      ∃ es, drain (TraverseFully exampleTrie) = some es ∧
        es.Pairwise (fun a b => keyLt a.key b.key = true) ∧
        (es.map Entry.key).Nodup ∧
        ∀ e, e ∈ es ↔ (e.value.isSome = true ∧ Get exampleTrie e.key = e.value) :=
  ⟨Reachable_exampleTrie, by decide,
    C8_forward_sorted_complete exampleTrie Reachable_exampleTrie (by decide)⟩

/-- C10: on every reachable trie (holding at most `MaxUint64` entries), for
every key stored in it, the unlimited forward traversal seeded at the key
without subtree restriction yields exactly the suffix of the full forward
traversal that starts at the entry of the key.  The entries of the full
traversal before that suffix have smaller keys; the suffix is strictly
ascending and consists of the stored entries whose key is not smaller than
the seed, the entry of the seed being the first. -/
theorem C10_seek_at_stored_key (t : BTrie V) (hr : Reachable t)
    (hsz : t.root.entries.length ≤ MaxUint64) (K : List Byte) (v : V)
    (hg : Get t K = some v) :
    ∃ pre rest, drain (TraverseFully t) = some (pre ++ ⟨K, some v⟩ :: rest) ∧
      drain (Traverse t ⟨Direction.Forward, some K, false, 0⟩) = some (⟨K, some v⟩ :: rest) ∧
      (∀ e ∈ pre, keyLt e.key K = true) ∧
      (⟨K, some v⟩ :: rest).Pairwise (fun a b => keyLt a.key b.key = true) ∧
      ∀ e, e ∈ (⟨K, some v⟩ :: rest : List (Entry V)) ↔
        (e.value.isSome = true ∧ Get t e.key = e.value ∧ keyLt e.key K = false) := by
  obtain ⟨-, hwf⟩ := Reachable_inv t hr
  obtain ⟨s2, pre, h1, h2⟩ := Traverse_seek t Direction.Forward K
  have hl := leaf_of_Get t K v hg
  have hw := walk_eq Direction.Forward (drillLoop none (steps K) t.root none).1
  rw [hl] at hw
  simp only [Option.toList_some, List.singleton_append] at hw
  rw [hw, walk_forward] at h2
  simp only [List.cons_append] at h2
  have hfull : drain (TraverseFully t) = some t.root.entries := by
    have := drain_full t Direction.Forward
    rw [walk_forward, List.take_of_length_le hsz] at this
    exact this
  have hsorted := WF_sorted [] t.root hwf
  rw [h2, List.pairwise_append] at hsorted
  have hstored := mem_entries_iff_Get t hwf
  refine ⟨pre, _, by rw [hfull, h2], ?_, ?_, hsorted.2.1, ?_⟩
  · rw [h1, drain_spec, stackWalk_push, hw]
    simp only [List.cons_append]
    rw [List.take_of_length_le]
    have hlen := congrArg List.length h2
    simp only [List.length_append, List.length_cons] at hlen ⊢
    omega
  · intro e he
    exact hsorted.2.2 e he _ (List.mem_cons_self _ _)
  · intro e
    constructor
    · intro he
      have hmem : e ∈ t.root.entries := by
        rw [h2]
        exact List.mem_append_right _ he
      obtain ⟨a1, a2⟩ := (hstored e).1 hmem
      refine ⟨a1, a2, ?_⟩
      rcases List.mem_cons.1 he with h | h
      · rw [h]
        exact keyLt_irrefl K
      · exact keyLt_asymm _ _ (List.rel_of_pairwise_cons hsorted.2.1 h)
    · rintro ⟨a1, a2, a3⟩
      have hmem := (hstored e).2 ⟨a1, a2⟩
      rw [h2, List.mem_append] at hmem
      rcases hmem with h | h
      · have := hsorted.2.2 e h _ (List.mem_cons_self _ _)
        simp only at this
        rw [a3] at this
        exact Bool.noConfusion this
      · exact h

theorem C10_seek_at_stored_key_witness :
    Reachable exampleTrie ∧ exampleTrie.root.entries.length ≤ MaxUint64 ∧
      Get exampleTrie [112, 101, 114, 102] = some 1 ∧
      ∃ pre rest, drain (TraverseFully exampleTrie)
          = some (pre ++ ⟨[112, 101, 114, 102], some 1⟩ :: rest) ∧
        drain (Traverse exampleTrie ⟨Direction.Forward, some [112, 101, 114, 102], false, 0⟩)
          = some (⟨[112, 101, 114, 102], some 1⟩ :: rest) ∧
        (∀ e ∈ pre, keyLt e.key [112, 101, 114, 102] = true) ∧
        (⟨[112, 101, 114, 102], some 1⟩ :: rest).Pairwise
          (fun a b => keyLt a.key b.key = true) ∧
        ∀ e, e ∈ (⟨[112, 101, 114, 102], some 1⟩ :: rest : List (Entry Nat)) ↔
          (e.value.isSome = true ∧ Get exampleTrie e.key = e.value ∧
            keyLt e.key [112, 101, 114, 102] = false) :=
  ⟨Reachable_exampleTrie, by decide, by rfl,
    C10_seek_at_stored_key exampleTrie Reachable_exampleTrie (by decide)
      [112, 101, 114, 102] 1 (by rfl)⟩

/-- C6 (the code at the failing input): after `Put` of the key `[0]` with the
value 1 and `Put` of the same key with the value 2, the trie is reachable and
holds the single entry `[0] -> 2`, which is what the full traversal yields,
but `Size` returns 2: `Put` counts the update as a new entry. -/
theorem C6_size_counts_update :
    Reachable updatedTrie ∧ Size updatedTrie = 2 ∧
      drain (TraverseFully updatedTrie) = some [⟨[0], some 2⟩] ∧
      Get updatedTrie [0] = some 2 :=
  ⟨Reachable_putAll _ New Reachable.init, by rfl, by rfl, by rfl⟩

/-- C9 (the code at the failing input): on the trie of `example.go`, which
stores "fall" and "fallout", the backward traversal yields "fall" before
"fallout", as the forward traversal does, so it is not the reverse of the
forward traversal. -/
theorem C9_backward_not_reverse :
    Reachable exampleTrie ∧
      drain (TraverseFully exampleTrie) = some
        [⟨[102, 97, 108, 108], some 3⟩, ⟨[102, 97, 108, 108, 111, 117, 116], some 5⟩,
          ⟨[112, 101, 114, 102], some 1⟩, ⟨[119, 105, 110], some 4⟩,
          ⟨[119, 105, 110, 116, 101, 114], some 2⟩] ∧
      drain (Traverse exampleTrie ⟨Direction.Backwards, none, false, 0⟩) = some
        [⟨[119, 105, 110], some 4⟩, ⟨[119, 105, 110, 116, 101, 114], some 2⟩,
          ⟨[112, 101, 114, 102], some 1⟩, ⟨[102, 97, 108, 108], some 3⟩,
          ⟨[102, 97, 108, 108, 111, 117, 116], some 5⟩] ∧
      (drain (Traverse exampleTrie ⟨Direction.Backwards, none, false, 0⟩)
        ≠ (drain (TraverseFully exampleTrie)).map List.reverse) :=
  ⟨Reachable_exampleTrie, by rfl, by rfl, by decide⟩

/-- C16: `Put` with a nil value returns what `Remove` of the key returns, the
old value and the trie (same nodes, same size); and no node of a reachable
trie hosts an entry with a nil value. -/
theorem C16_put_nil_is_remove (t : BTrie V) (hr : Reachable t) (K : List Byte) :
    Put t K none = some (Remove t K) ∧
      ∀ q e, (t.root.sub q).leaf = some e → e.value.isSome = true := by
  refine ⟨rfl, ?_⟩
  intro q e h
  obtain ⟨-, hwf⟩ := Reachable_inv t hr
  exact WF_entries_value _ _ _ hwf ((mem_entries_iff_sub _ _).2 ⟨q, h⟩)

theorem C16_put_nil_is_remove_witness :
    Reachable exampleTrie ∧
      (Put exampleTrie [119, 105, 110] none = some (Remove exampleTrie [119, 105, 110]) ∧
        ∀ q e, (exampleTrie.root.sub q).leaf = some e → e.value.isSome = true) :=
  ⟨Reachable_exampleTrie, C16_put_nil_is_remove exampleTrie Reachable_exampleTrie [119, 105, 110]⟩

/-- C17: in every reachable trie, the path of child bits from the root to a
node that hosts an entry is a prefix of the bit string of the entry's key, so
the depth of the node is at most 8 times the length of the key; two nodes that
host entries with the same key are the same node, and the keys of the entries
of the trie are pairwise distinct. -/
theorem C17_path_is_key_start (t : BTrie V) (hr : Reachable t) :
    (∀ q e, (t.root.sub q).leaf = some e → q <+: bits e.key ∧ q.length ≤ 8 * e.key.length) ∧
      (∀ q1 q2 e1 e2, (t.root.sub q1).leaf = some e1 → (t.root.sub q2).leaf = some e2 →
        e1.key = e2.key → q1 = q2) ∧
      (t.root.entries.map Entry.key).Nodup := by
  obtain ⟨-, hwf⟩ := Reachable_inv t hr
  refine ⟨?_, ?_, ?_⟩
  · intro q e h
    have := (WF_leaf _ _ _ (WF_sub [] t.root hwf q) h).1
    simp only [List.nil_append] at this
    refine ⟨this, ?_⟩
    have hl := this.length_le
    rwa [bits_length] at hl
  · intro q1 q2 e1 e2 h1 h2 hk
    exact WF_host_unique t.root hwf q1 q2 e1 e2 h1 h2 hk
  · rw [List.Nodup, List.pairwise_map]
    exact (WF_sorted [] t.root hwf).imp fun {a b} h hab => by
      rw [hab, keyLt_irrefl] at h
      exact Bool.noConfusion h

theorem C17_path_is_key_start_witness :
    Reachable exampleTrie ∧
      ((∀ q e, (exampleTrie.root.sub q).leaf = some e →
          q <+: bits e.key ∧ q.length ≤ 8 * e.key.length) ∧
        (∀ q1 q2 e1 e2, (exampleTrie.root.sub q1).leaf = some e1 →
          (exampleTrie.root.sub q2).leaf = some e2 → e1.key = e2.key → q1 = q2) ∧
        (exampleTrie.root.entries.map Entry.key).Nodup) :=
  ⟨Reachable_exampleTrie, C17_path_is_key_start exampleTrie Reachable_exampleTrie⟩

/-- C18: every reachable trie has a root and no dead node: every node other
than the root that hosts no entry has a non-nil child.  This holds again after
every `Put`, which returns without panic and leaves none of the nodes it
creates empty, and after every `Remove`, whose pruning therefore detaches
every node it has emptied and never the root.  The pruning stops at the first
non-empty ancestor: a node that was in the trie before `Remove` and is not in
it afterwards lies on the path of the removed key and has no entry with
another key in its subtree, and the entries of the trie after the call are
those before it without the entry of the removed key. -/
theorem C18_no_dead_nodes (t : BTrie V) (hr : Reachable t) :
    NoDeadNodes t ∧ (∀ K, NoDeadNodes (Remove t K).1) ∧
      (∀ K v, ∃ t2 old, Put t K v = some (t2, old) ∧ NoDeadNodes t2) ∧
      (∀ K q, (t.root.sub q).isNil = false → ((Remove t K).1.root.sub q).isNil = true →
        q ≠ [] ∧ q <+: bits K ∧ ∀ e ∈ (t.root.sub q).entries, e.key = K) ∧
      ∀ K, (Remove t K).1.root.entries
        = t.root.entries.filter (fun e => decide (e.key ≠ K)) := by
  have key : ∀ t : BTrie V, Reachable t → NoDeadNodes t :=
    fun t h => NoDeadNodes_of t (Reachable_inv t h).1 (Reachable_Live t h)
  obtain ⟨-, hwf⟩ := Reachable_inv t hr
  refine ⟨key t hr, fun K => key _ (Reachable.remove t K hr), ?_, ?_, ?_⟩
  · intro K v
    obtain ⟨t2, old, h⟩ := Put_total t hr K v
    exact ⟨t2, old, h, key t2 (Reachable.put t t2 K v old hr h)⟩
  · intro K q h1 h2
    obtain ⟨h3, h4⟩ := Remove_detached t hwf K q h1 h2
    refine ⟨?_, h3, h4⟩
    intro hq
    subst hq
    have hroot := (key _ (Reachable.remove t K hr)).1
    simp only [node.sub] at h2
    rw [hroot] at h2
    exact Bool.noConfusion h2
  · intro K
    exact (Remove_spec t hwf K).2.2.2.1

theorem C18_no_dead_nodes_witness :
    Reachable edgeTrie ∧
      (NoDeadNodes edgeTrie ∧ (∀ K, NoDeadNodes (Remove edgeTrie K).1) ∧
        (∀ K v, ∃ t2 old, Put edgeTrie K v = some (t2, old) ∧ NoDeadNodes t2) ∧
        (∀ K q, (edgeTrie.root.sub q).isNil = false →
          ((Remove edgeTrie K).1.root.sub q).isNil = true →
            q ≠ [] ∧ q <+: bits K ∧ ∀ e ∈ (edgeTrie.root.sub q).entries, e.key = K) ∧
        ∀ K, (Remove edgeTrie K).1.root.entries
          = edgeTrie.root.entries.filter (fun e => decide (e.key ≠ K))) :=
  ⟨Reachable_edgeTrie, C18_no_dead_nodes edgeTrie Reachable_edgeTrie⟩

/-- C19: on every reachable trie `Put` returns for every key and every value:
no read of an occupant's key is out of range and no nil pointer is followed
(either would make `Put` return `none` here).  The fact this rests on: an
occupant whose key is longer than the depth of its node sits in a childless
node, that is, the key of an occupant of a node with a child has exactly the
node's depth as its bit length. -/
theorem C19_put_never_panics (t : BTrie V) (hr : Reachable t) :
    (∀ K v, ∃ t2 old, Put t K v = some (t2, old)) ∧
      ∀ q e, (t.root.sub q).leaf = some e → (t.root.sub q).hasChild = true →
        8 * e.key.length = q.length := by
  refine ⟨fun K v => Put_total t hr K v, ?_⟩
  intro q e h hc
  obtain ⟨-, hwf⟩ := Reachable_inv t hr
  have := (WF_leaf _ _ _ (WF_sub [] t.root hwf q) h).2.1 hc
  simp only [List.nil_append] at this
  rw [← bits_length, this]

theorem C19_put_never_panics_witness :
    Reachable edgeTrie ∧
      ((∀ K v, ∃ t2 old, Put edgeTrie K v = some (t2, old)) ∧
        ∀ q e, (edgeTrie.root.sub q).leaf = some e → (edgeTrie.root.sub q).hasChild = true →
          8 * e.key.length = q.length) :=
  ⟨Reachable_edgeTrie, C19_put_never_panics edgeTrie Reachable_edgeTrie⟩

/-- C13 (the claim fails at the limit 0): on the trie of `example.go` the
forward traversal with `Limit: 0` yields all 5 entries, not `min(0, Size())`,
which is 0. -/
theorem C13_limit_zero_is_unlimited :
    Reachable exampleTrie ∧
      (drain (Traverse exampleTrie ⟨Direction.Forward, none, false, 0⟩)).map List.length
        = some 5 ∧
      min (0 : Int) (Size exampleTrie) = 0 :=
  ⟨Reachable_exampleTrie, by rfl, by decide⟩

/-- C13, amended: for every trie and every limit `L` from 1 to `MaxUint64`,
the forward traversal with the limit `L` terminates and yields the first `L`
entries of the unlimited forward traversal, all of them when there are fewer:
`min(L, n)` entries, `n` being the number of entries the unlimited traversal
yields. -/
theorem C13_limit_positive (t : BTrie V) (L : Nat) (h1 : 1 ≤ L) (h2 : L ≤ MaxUint64) :
    ∃ full, drain (TraverseFully t) = some full ∧
      drain (Traverse t ⟨Direction.Forward, none, false, L⟩) = some (full.take L) ∧
      (full.take L).length = min L full.length := by
  have h0 := drain_Traverse t Direction.Forward none false 0
  refine ⟨_, h0, ?_, List.length_take _ _⟩
  rw [drain_limited t _ _ _ L (by omega) h2, h0]
  rfl

theorem C13_limit_positive_witness :
    1 ≤ 3 ∧ 3 ≤ MaxUint64 ∧
      ∃ full, drain (TraverseFully exampleTrie) = some full ∧
        drain (Traverse exampleTrie ⟨Direction.Forward, none, false, 3⟩) = some (full.take 3) ∧
        (full.take 3).length = min 3 full.length :=
  ⟨by decide, by decide, C13_limit_positive exampleTrie 3 (by decide) (by decide)⟩

/-- C14: for every trie, every direction, start key and subtree flag, and
every limit `L` that a `uint64` can hold, the traversal with the limit `L`
terminates; for `L >= 1` it yields the entries of the same traversal without
limit cut after the first `L`, `min(L, n)` entries when the unlimited
traversal yields `n`, and for `L = 0` it is the unlimited traversal. -/
theorem C14_limit_truncates (t : BTrie V) (dir : Direction) (src : Option (List Byte))
    (sub : Bool) (L : Nat) (hL : L ≤ MaxUint64) :
    ∃ full, drain (Traverse t ⟨dir, src, sub, 0⟩) = some full ∧
      drain (Traverse t ⟨dir, src, sub, L⟩) = some (if L = 0 then full else full.take L) ∧
      (L ≠ 0 → (full.take L).length = min L full.length) := by
  have h0 := drain_Traverse t dir src sub 0
  refine ⟨_, h0, ?_, fun _ => List.length_take _ _⟩
  by_cases h : L = 0
  · subst h
    rw [h0]
    rfl
  · rw [drain_limited t dir src sub L h hL, h0, if_neg h]
    rfl

theorem C14_limit_truncates_witness :
    2 ≤ MaxUint64 ∧
      ∃ full, drain (Traverse exampleTrie ⟨Direction.Backwards, some [112], true, 0⟩)
          = some full ∧
        drain (Traverse exampleTrie ⟨Direction.Backwards, some [112], true, 2⟩)
          = some (if 2 = 0 then full else full.take 2) ∧
        (2 ≠ 0 → (full.take 2).length = min 2 full.length) :=
  ⟨by decide, C14_limit_truncates exampleTrie Direction.Backwards (some [112]) true 2 (by decide)⟩

/-- C11 (the code at the failing input): on the trie of `example.go` no stored
key is greater than or equal to "x", yet the forward traversal seeded at "x"
yields "perf", "win" and "winter", all smaller than the seed: `drillDown`
stops at the node of the path 0111, where the child for the next bit of "x" is
missing, and `Traverse` walks the whole subtree of that node. -/
theorem C11_forward_seek_yields_smaller :
    Reachable exampleTrie ∧ Get exampleTrie [120] = none ∧
      drain (Traverse exampleTrie ⟨Direction.Forward, some [120], false, 0⟩) = some
        [⟨[112, 101, 114, 102], some 1⟩, ⟨[119, 105, 110], some 4⟩,
          ⟨[119, 105, 110, 116, 101, 114], some 2⟩] ∧
      keyLt [112, 101, 114, 102] [120] = true ∧ keyLt [119, 105, 110] [120] = true ∧
      keyLt [119, 105, 110, 116, 101, 114] [120] = true :=
  ⟨Reachable_exampleTrie, by rfl, by rfl, by decide, by decide, by decide⟩

/-- C12 (the code at the failing input): on the trie of `example.go` the
backward traversal seeded at "winter" yields "winter", "perf", "fall",
"fallout": it omits the stored key "win", a strict prefix of the seed, and
yields "fall" before the greater "fallout"; seeded at "win" it yields
"winter", which is greater than the seed. -/
theorem C12_backward_seek_diverges :
    Reachable exampleTrie ∧
      drain (Traverse exampleTrie
          ⟨Direction.Backwards, some [119, 105, 110, 116, 101, 114], false, 0⟩) = some
        [⟨[119, 105, 110, 116, 101, 114], some 2⟩, ⟨[112, 101, 114, 102], some 1⟩,
          ⟨[102, 97, 108, 108], some 3⟩, ⟨[102, 97, 108, 108, 111, 117, 116], some 5⟩] ∧
      Get exampleTrie [119, 105, 110] = some 4 ∧
      keyLt [119, 105, 110] [119, 105, 110, 116, 101, 114] = true ∧
      keyLt [102, 97, 108, 108] [102, 97, 108, 108, 111, 117, 116] = true ∧
      drain (Traverse exampleTrie ⟨Direction.Backwards, some [119, 105, 110], false, 0⟩) = some
        [⟨[119, 105, 110], some 4⟩, ⟨[119, 105, 110, 116, 101, 114], some 2⟩,
          ⟨[112, 101, 114, 102], some 1⟩, ⟨[102, 97, 108, 108], some 3⟩,
          ⟨[102, 97, 108, 108, 111, 117, 116], some 5⟩] :=
  ⟨Reachable_exampleTrie, by rfl, by rfl, by decide, by decide, by rfl⟩

/-- C15 (the code at the failing input): on the trie of `example.go` the
subtree-only traversal seeded at "x" yields "perf", "win" and "winter", none
of which begins with "x" (and none of which is a prefix of "x"). -/
theorem C15_subtree_only_leaves_subtree :
    Reachable exampleTrie ∧
      drain (Traverse exampleTrie ⟨Direction.Forward, some [120], true, 0⟩) = some
        [⟨[112, 101, 114, 102], some 1⟩, ⟨[119, 105, 110], some 4⟩,
          ⟨[119, 105, 110, 116, 101, 114], some 2⟩] ∧
      ([120] : List Byte).isPrefixOf [112, 101, 114, 102] = false ∧
      ([120] : List Byte).isPrefixOf [119, 105, 110] = false ∧
      ([120] : List Byte).isPrefixOf [119, 105, 110, 116, 101, 114] = false ∧
      ([112, 101, 114, 102] : List Byte).isPrefixOf [120] = false ∧
      ([119, 105, 110] : List Byte).isPrefixOf [120] = false ∧
      ([119, 105, 110, 116, 101, 114] : List Byte).isPrefixOf [120] = false :=
  ⟨Reachable_exampleTrie, by rfl, by decide, by decide, by decide, by decide, by decide,
    by decide⟩

/-- C20 (the code at the failing input): on the cursor of a full traversal of
the empty trie the first `HasNext` returns false and leaves `curr` at the
root, so the second `HasNext` returns true, and the `Next` after it returns a
nil entry. -/
theorem C20_hasNext_false_then_true :
    HasNext (TraverseFully (New : BTrie Nat))
        = some (false, ⟨emptyNode, [], ⟨Direction.Forward, none, false, MaxUint64⟩⟩) ∧
      HasNext (⟨emptyNode, [], ⟨Direction.Forward, none, false, MaxUint64⟩⟩ : Cursor Nat)
        = some (true, ⟨emptyNode, [], ⟨Direction.Forward, none, false, MaxUint64⟩⟩) ∧
      Next (⟨emptyNode, [], ⟨Direction.Forward, none, false, MaxUint64⟩⟩ : Cursor Nat)
        = some (none, ⟨node.nil, [], ⟨Direction.Forward, none, false, MaxUint64⟩⟩) :=
  ⟨by rfl, by rfl, by rfl⟩

end btrie
